import Mathlib

/-!
Verification of the hybrid conflict classification and resolution engine of
the `release-agent` repository.

The Python sources embedded here (shallowly, as executable Lean functions):
* `scripts/smart_merge.py` — pattern library, hunk classifier, confidence and
  strategy engine (`classify_hunk_change`, `resolve_hunk`, `merge_includes`, …);
* `scripts/llm_resolver.py` — bounded external reasoner adapter
  (`LLMResolver.resolve_conflict`, `LLMResolver.evaluate_dependency`,
  validation helpers);
* `rdkb-release-agent/scripts/resolve_conflicts.py` — hunk aggregation
  (`resolve_modify_modify_smart`, `_confidence_meets_minimum`).

Lines of source files are modelled as `String`; regular expressions of the
Python code are translated into explicit character scanners over `List Char`
that implement the same matching semantics (documented at each definition).
I/O (git calls, file writes, network, timing) is modelled by explicit
parameters and returned values.
-/

namespace ReleaseAgent

/-- ASCII whitespace characters recognised by Python's `\s` class and
`str.strip` for the ASCII range: space, tab, newline, carriage return,
vertical tab, form feed. -/
def isSpaceChar (c : Char) : Bool :=
  c = ' ' || c = '\t' || c = '\n' || c = '\r' || c = Char.ofNat 11 || c = Char.ofNat 12

/-- Python's `\w` class over ASCII: letters, digits, underscore. -/
def isWordChar (c : Char) : Bool :=
  c.isAlpha || c.isDigit || c = '_'

/-- The opening curly brace character (written numerically). -/
def curlyOpen : Char := Char.ofNat 123

/-- The closing curly brace character (written numerically). -/
def curlyClose : Char := Char.ofNat 125

/-- One-character string holding an opening curly brace. -/
def curlyOpenStr : String := String.mk [curlyOpen]

/-- One-character string holding a closing curly brace. -/
def curlyCloseStr : String := String.mk [curlyClose]

/-- `str.strip()` on a character list: drop whitespace at both ends. -/
def pyStripList (l : List Char) : List Char :=
  ((l.dropWhile isSpaceChar).reverse.dropWhile isSpaceChar).reverse

/-- Python `str.strip()`. -/
def pyStrip (s : String) : String :=
  String.mk (pyStripList s.toList)

/-- Python `str.rstrip('\n')` on a character list. -/
def pyRstripNewlineList (l : List Char) : List Char :=
  (l.reverse.dropWhile (fun c => c = '\n')).reverse

/-- Python `str.rstrip('\n')`. -/
def pyRstripNewline (s : String) : String :=
  String.mk (pyRstripNewlineList s.toList)

/-- ASCII lower-casing of a string (Python `str.lower()` restricted to the
ASCII range, which is all the engine's inputs use). -/
def lowerStr (s : String) : String :=
  String.mk (s.toList.map Char.toLower)

/-- ASCII upper-casing of a string (Python `str.upper()` on the ASCII range). -/
def upperStr (s : String) : String :=
  String.mk (s.toList.map Char.toUpper)

/-- Does the string contain the given character? -/
def hasCharStr (c : Char) (s : String) : Bool :=
  s.toList.contains c

/-- Match a literal character sequence (case sensitive); return the rest on
success. -/
def matchChars : List Char → List Char → Option (List Char)
| [], s => some s
| p :: ps, c :: cs => if c = p then matchChars ps cs else none
| _ :: _, [] => none

/-- Match a literal character sequence case-insensitively (for regexes compiled
with `re.IGNORECASE`); return the rest on success. -/
def matchCharsCI : List Char → List Char → Option (List Char)
| [], s => some s
| p :: ps, c :: cs => if c.toLower = p.toLower then matchCharsCI ps cs else none
| _ :: _, [] => none

/-! ### `smart_merge._normalize_whitespace` and `_is_whitespace_only_diff`
Source: `scripts/smart_merge.py` lines 115–124. -/

/-- `_normalize_whitespace`: strip all whitespace characters from a line
(`re.sub(r'\s+', '', line.rstrip('\n'))`; the `rstrip` is subsumed by removing
every whitespace character). -/
def normalizeWhitespace (line : String) : String :=
  String.mk (line.toList.filter (fun c => !isSpaceChar c))

/-- The list comprehension
`[_normalize_whitespace(l) for l in lines if _normalize_whitespace(l)]`:
keep the lines whose whitespace-stripped form is non-empty (Python string
truthiness) and map each to that form. -/
def normNonEmpty (lines : List String) : List String :=
  (lines.filter (fun l => normalizeWhitespace l ≠ "")).map normalizeWhitespace

/-- `_is_whitespace_only_diff`. -/
def isWhitespaceOnlyDiff (linesA linesB : List String) : Bool :=
  decide (normNonEmpty linesA = normNonEmpty linesB)

/-! ### `RE_INCLUDE` and include handling
`RE_INCLUDE = re.compile(r'^\s*#\s*include\s+[<"].*[>"]')`, used through
`re.match` (anchored at the start, no end anchor).  Source: `smart_merge.py`
lines 82, 127–130, 165–167, 244–277. -/

/-- The `.*[>"]` part of `RE_INCLUDE`: since `.` does not match a newline, the
pattern matches the rest of the input iff a `>` or `"` occurs before the first
newline. -/
def hasIncludeCloser (l : List Char) : Bool :=
  (l.takeWhile (fun c => c ≠ '\n')).any (fun c => c = '>' || c = '\"')

/-- Stage of `RE_INCLUDE` after `include` and one whitespace: `\s*[<"].*[>"]`. -/
def reIncludeOpener (r3 : List Char) : Bool :=
  match r3.dropWhile isSpaceChar with
  | d :: r4 => (d = '<' || d = '\"') && hasIncludeCloser r4
  | [] => false

/-- Stage of `RE_INCLUDE` after `#`: `\s*include\s+[<"].*[>"]`. -/
def reIncludeAfterSharp (r1 : List Char) : Bool :=
  match matchChars "include".toList (r1.dropWhile isSpaceChar) with
  | some (c :: r3) => if isSpaceChar c then reIncludeOpener r3 else false
  | some [] => false
  | none => false

/-- `RE_INCLUDE.match(line)` as a boolean: `^\s*#\s*include\s+[<"].*[>"]`.
Each greedy `\s*`/`\s+` is deterministic because the following literal is not
whitespace. -/
def reIncludeMatch (l : List Char) : Bool :=
  match l.dropWhile isSpaceChar with
  | c :: r1 => if c = '#' then reIncludeAfterSharp r1 else false
  | [] => false

/-- `_all_includes`: every non-blank line is an include directive, and there is
at least one non-blank line. -/
def allIncludes (lines : List String) : Bool :=
  let nonEmpty := lines.filter (fun l => pyStrip l ≠ "")
  decide (0 < nonEmpty.length) && nonEmpty.all (fun l => reIncludeMatch l.toList)

/-- `_extract_includes`: the lines matching `RE_INCLUDE`, each with trailing
newlines removed. -/
def extractIncludes (lines : List String) : List String :=
  (lines.filter (fun l => reIncludeMatch l.toList)).map pyRstripNewline

/-- The de-duplication loop of `merge_includes`: keep the first occurrence of
each whitespace-normalized include text (`seen` is the set of normalized texts
already emitted). -/
def dedupByNorm : List String → List String → List String
| _, [] => []
| seen, x :: xs =>
  let n := normalizeWhitespace x
  if n ∈ seen then dedupByNorm seen xs
  else x :: dedupByNorm (n :: seen) xs

/-- The sort key `lambda x: x.strip().lower()` used by `merge_includes`. -/
def sortKey (s : String) : String :=
  lowerStr (pyStrip s)

/-- Lexicographic comparison of character lists by code point — exactly
Python's `<=` on strings. -/
def charListLe : List Char → List Char → Bool
| [], _ => true
| _ :: _, [] => false
| a :: as, b :: bs =>
  if a.toNat < b.toNat then true
  else if b.toNat < a.toNat then false
  else charListLe as bs

/-- Comparison of two include lines by their sort keys. -/
def keyLe (a b : String) : Bool :=
  charListLe (sortKey a).toList (sortKey b).toList

/-- Insert an element into a list, after every element whose key is `≤` its
key (so equal keys keep their original relative order, as in Python's stable
sort). -/
def insertSorted (x : String) : List String → List String
| [] => [x]
| y :: ys => if keyLe y x then y :: insertSorted x ys else x :: y :: ys

/-- Left-to-right insertion run for the stable sort. -/
def stableSortRun : List String → List String → List String
| [], acc => acc
| x :: xs, acc => stableSortRun xs (insertSorted x acc)

/-- Python's `sorted(·, key=lambda x: x.strip().lower())`: the unique stable
sort by `sortKey`, realised as a stable insertion sort. -/
def pySorted (l : List String) : List String :=
  stableSortRun l []

/-- `merge_includes` (source lines 244–277): extract include lines from both
sides, de-duplicate by whitespace-normalized text, then output the quoted
("local") includes sorted case-insensitively, followed by the angle-bracket
("system") includes sorted case-insensitively, followed by any remaining
includes, each line with a newline appended. -/
def mergeIncludes (oursLines theirsLines : List String) : List String :=
  let oursIncludes := extractIncludes oursLines
  let theirsIncludes := extractIncludes theirsLines
  let merged := dedupByNorm [] (oursIncludes ++ theirsIncludes)
  let systemInc := merged.filter (fun i => hasCharStr '<' i && hasCharStr '>' i)
  let localInc := merged.filter (fun i => hasCharStr '\"' i)
  let otherInc := merged.filter (fun i => !(decide (i ∈ systemInc)) && !(decide (i ∈ localInc)))
  (pySorted localInc ++ pySorted systemInc ++ otherInc).map (fun line => line ++ "\n")

example : mergeIncludes ["#include <stdio.h>\n"] ["#include <stdio.h>\n", "#include <string.h>\n"] = ["#include <stdio.h>\n", "#include <string.h>\n"] := by decide

example : isWhitespaceOnlyDiff ["  int x=1;  \n"] ["int x=1;\n"] = true := by decide

example : allIncludes ["#include <stdio.h>\n", "\n"] = true := by decide

/-! ### Comment detection
`RE_COMMENT_LINE = re.compile(r'^\s*(/\*.*\*/|//.*|\*.*|\*/)\s*$')`,
`RE_COMMENT_START = re.compile(r'^\s*/\*')`,
`RE_COMMENT_END = re.compile(r'.*\*/\s*$')`, used through `re.match`.
Source: `smart_merge.py` lines 85–87, 133–152.
In a pattern without `re.MULTILINE`, `\s*$` succeeds from a position iff every
remaining character is whitespace, and `.` does not match a newline. -/

/-- All characters are whitespace (equivalently, `\s*$` matches here). -/
def isAllWhitespace (l : List Char) : Bool :=
  l.all isSpaceChar

/-- `.*\s*$` from this position: everything from the first newline on must be
whitespace (the non-newline prefix is consumed by `.*`). -/
def restOfLineBlank (l : List Char) : Bool :=
  isAllWhitespace (l.dropWhile (fun c => c ≠ '\n'))

/-- `.*\*/\s*$` from this position: some occurrence of `*/` preceded only by
non-newline characters and followed only by whitespace. -/
def starSlashScan : List Char → Bool
| [] => false
| c :: rest =>
  (c = '*' && (match rest with | '/' :: r2 => isAllWhitespace r2 | _ => false))
  || (c ≠ '\n' && starSlashScan rest)

/-- `RE_COMMENT_END.match(line)`. -/
def reCommentEndMatch (l : List Char) : Bool :=
  starSlashScan l

/-- `RE_COMMENT_LINE.match(line)`: after leading whitespace, either a one-line
block comment `/* … */`, a line comment `// …`, or a `* …`/`*/` continuation
line, followed only by whitespace. -/
def reCommentLineMatch (l : List Char) : Bool :=
  match l.dropWhile isSpaceChar with
  | '/' :: '*' :: r => starSlashScan r
  | '/' :: '/' :: r => restOfLineBlank r
  | '*' :: r => restOfLineBlank r
  | _ => false

/-- `RE_COMMENT_START.match(line)`. -/
def reCommentStartMatch (l : List Char) : Bool :=
  match l.dropWhile isSpaceChar with
  | '/' :: '*' :: _ => true
  | _ => false

/-- The block-comment state loop inside `_all_comments` (state = `in_block`). -/
def allCommentsLoop : Bool → List String → Bool
| _, [] => true
| true, line :: rest =>
  allCommentsLoop (!reCommentEndMatch line.toList) rest
| false, line :: rest =>
  if reCommentLineMatch line.toList then allCommentsLoop false rest
  else if reCommentStartMatch line.toList then
    allCommentsLoop (!reCommentEndMatch line.toList) rest
  else false

/-- `_all_comments`: every non-blank line is inside a line or block comment. -/
def allComments (lines : List String) : Bool :=
  let nonEmpty := lines.filter (fun l => pyStrip l ≠ "")
  if nonEmpty.isEmpty then false
  else allCommentsLoop false nonEmpty

/-! ### `RE_NULL_CHECK` (source lines 90–96, case-insensitive, via `re.search`)
```
(if\s*\(\s*\!?\s*\w+\s*(==|!=)\s*NULL\s*\)|
 if\s*\(\s*NULL\s*(==|!=)\s*\w+\s*\)|
 if\s*\(\s*\!\s*\w+\s*\)|
 if\s*\(\s*\w+\s*\))
```
Each greedy `\s*`/`\w+` is deterministic because the next required token is
neither whitespace nor a word character. -/

/-- `\s*` — skip whitespace. -/
def skipWS (l : List Char) : List Char :=
  l.dropWhile isSpaceChar

/-- `\w+` — at least one word character, then the maximal word run. -/
def wordRun1 : List Char → Option (List Char)
| c :: cs => if isWordChar c then some (cs.dropWhile isWordChar) else none
| [] => none

/-- `(==|!=)`. -/
def eqNeq : List Char → Option (List Char)
| '=' :: '=' :: r => some r
| '!' :: '=' :: r => some r
| _ => none

/-- `\)` at the head. -/
def closeParen : List Char → Bool
| ')' :: _ => true
| _ => false

/-- Alternative 1 body, after `if\s*\(` : `\s*\!?\s*\w+\s*(==|!=)\s*NULL\s*\)`. -/
def nullAlt1Body (r : List Char) : Bool :=
  let r1 := skipWS r
  let r2 := match r1 with | '!' :: t => skipWS t | _ => r1
  match wordRun1 r2 with
  | some r3 =>
    match eqNeq (skipWS r3) with
    | some r4 =>
      match matchCharsCI "null".toList (skipWS r4) with
      | some r5 => closeParen (skipWS r5)
      | none => false
    | none => false
  | none => false

/-- Alternative 2 body: `\s*NULL\s*(==|!=)\s*\w+\s*\)`. -/
def nullAlt2Body (r : List Char) : Bool :=
  match matchCharsCI "null".toList (skipWS r) with
  | some r1 =>
    match eqNeq (skipWS r1) with
    | some r2 =>
      match wordRun1 (skipWS r2) with
      | some r3 => closeParen (skipWS r3)
      | none => false
    | none => false
  | none => false

/-- Alternative 3 body: `\s*\!\s*\w+\s*\)`. -/
def nullAlt3Body (r : List Char) : Bool :=
  match skipWS r with
  | '!' :: r1 =>
    match wordRun1 (skipWS r1) with
    | some r2 => closeParen (skipWS r2)
    | none => false
  | _ => false

/-- Alternative 4 body: `\s*\w+\s*\)`. -/
def nullAlt4Body (r : List Char) : Bool :=
  match wordRun1 (skipWS r) with
  | some r1 => closeParen (skipWS r1)
  | none => false

/-- `RE_NULL_CHECK` at one position: all four alternatives share the prelude
`if\s*\(`. -/
def nullCheckAt (l : List Char) : Bool :=
  match matchCharsCI "if".toList l with
  | some r0 =>
    match skipWS r0 with
    | '(' :: r =>
      nullAlt1Body r || nullAlt2Body r || nullAlt3Body r || nullAlt4Body r
    | _ => false
  | none => false

/-- `re.search`: try the pattern at every position. -/
def searchAnywhere (f : List Char → Bool) : List Char → Bool
| [] => f []
| c :: rest => f (c :: rest) || searchAnywhere f rest

/-- `_has_null_check`: some line matches `RE_NULL_CHECK` somewhere. -/
def hasNullCheck (lines : List String) : Bool :=
  lines.any (fun l => searchAnywhere nullCheckAt l.toList)

/-! ### `RE_ERROR_HANDLING` (source lines 99–107, case-insensitive, `re.search`)
```
(return\s+ANSC_STATUS_FAILURE|
 return\s+(-1|NULL|false|FALSE)|
 exit\s*\(\s*1\s*\)|
 CcspTraceError|CcspTraceWarning|
 ERR_CHK|
 goto\s+\w+error\w*|goto\s+\w+fail\w*)
``` -/

/-- `\s+` — at least one whitespace character, then skip the rest. -/
def skipWS1 : List Char → Option (List Char)
| c :: cs => if isSpaceChar c then some (cs.dropWhile isSpaceChar) else none
| [] => none

/-- Case-insensitive substring containment (for `\w+error\w*`-style bodies). -/
def containsCI (pat : List Char) (l : List Char) : Bool :=
  searchAnywhere (fun s => (matchCharsCI pat s).isSome) l

/-- `return\s+ANSC_STATUS_FAILURE`. -/
def errAlt1 (l : List Char) : Bool :=
  match matchCharsCI "return".toList l with
  | some r0 =>
    match skipWS1 r0 with
    | some r1 => (matchCharsCI "ansc_status_failure".toList r1).isSome
    | none => false
  | none => false

/-- `return\s+(-1|NULL|false|FALSE)` (case-insensitivity makes the two `false`
branches identical). -/
def errAlt2 (l : List Char) : Bool :=
  match matchCharsCI "return".toList l with
  | some r0 =>
    match skipWS1 r0 with
    | some r1 =>
      (matchChars "-1".toList r1).isSome
      || (matchCharsCI "null".toList r1).isSome
      || (matchCharsCI "false".toList r1).isSome
    | none => false
  | none => false

/-- `exit\s*\(\s*1\s*\)`. -/
def errAlt3 (l : List Char) : Bool :=
  match matchCharsCI "exit".toList l with
  | some r0 =>
    match skipWS r0 with
    | '(' :: r1 =>
      match skipWS r1 with
      | '1' :: r2 => closeParen (skipWS r2)
      | _ => false
    | _ => false
  | none => false

/-- `goto\s+\w+STEM\w*`: after `goto` and whitespace, the maximal word run must
contain the stem starting at index ≥ 1 (the `\w+` must be non-empty). -/
def gotoStem (stem : List Char) (l : List Char) : Bool :=
  match matchCharsCI "goto".toList l with
  | some r0 =>
    match skipWS1 r0 with
    | some r1 => containsCI stem ((r1.takeWhile isWordChar).drop 1)
    | none => false
  | none => false

/-- `RE_ERROR_HANDLING` at one position. -/
def errHandlingAt (l : List Char) : Bool :=
  errAlt1 l || errAlt2 l || errAlt3 l
  || (matchCharsCI "ccsptraceerror".toList l).isSome
  || (matchCharsCI "ccsptracewarning".toList l).isSome
  || (matchCharsCI "err_chk".toList l).isSome
  || gotoStem "error".toList l || gotoStem "fail".toList l

/-- `_has_error_handling`. -/
def hasErrorHandling (lines : List String) : Bool :=
  lines.any (fun l => searchAnywhere errHandlingAt l.toList)

/-! ### `detect_safety_improvement` (source lines 280–303, case-insensitive,
`re.search` over the union of nine patterns). -/

/-- `if\s*\(\s*\w+\s*==\s*NULL` (no closing parenthesis in the pattern). -/
def safetyEqNull (l : List Char) : Bool :=
  match matchCharsCI "if".toList l with
  | some r0 =>
    match skipWS r0 with
    | '(' :: r =>
      match wordRun1 (skipWS r) with
      | some r1 =>
        match skipWS r1 with
        | '=' :: '=' :: r2 => (matchCharsCI "null".toList (skipWS r2)).isSome
        | _ => false
      | none => false
    | _ => false
  | none => false

/-- `if\s*\(\s*NULL\s*==`. -/
def safetyNullEq (l : List Char) : Bool :=
  match matchCharsCI "if".toList l with
  | some r0 =>
    match skipWS r0 with
    | '(' :: r =>
      match matchCharsCI "null".toList (skipWS r) with
      | some r1 =>
        match skipWS r1 with
        | '=' :: '=' :: _ => true
        | _ => false
      | none => false
    | _ => false
  | none => false

/-- `if\s*\(\s*\!\s*\w+\s*\)` (the first safety pattern). -/
def safetyNotPtr (l : List Char) : Bool :=
  match matchCharsCI "if".toList l with
  | some r0 =>
    match skipWS r0 with
    | '(' :: r => nullAlt3Body r
    | _ => false
  | none => false

/-- `NAME\s*\(` — a bare call opener such as `snprintf\s*\(`. -/
def callOpener (name : List Char) (l : List Char) : Bool :=
  match matchCharsCI name l with
  | some r0 =>
    match skipWS r0 with
    | '(' :: _ => true
    | _ => false
  | none => false

/-- `NAME\s*\(\s*\w+\s*\)` — such as `close\s*\(\s*\w+\s*\)`. -/
def callOneArg (name : List Char) (l : List Char) : Bool :=
  match matchCharsCI name l with
  | some r0 =>
    match skipWS r0 with
    | '(' :: r => nullAlt4Body r
    | _ => false
  | none => false

/-- The combined safety pattern of `detect_safety_improvement` at one
position. -/
def safetyAt (l : List Char) : Bool :=
  safetyNotPtr l || safetyEqNull l || safetyNullEq l
  || callOpener "snprintf".toList l
  || callOneArg "close".toList l
  || callOneArg "free".toList l
  || errAlt3 l
  || callOpener "va_end".toList l
  || callOpener "fclose".toList l

/-- `detect_safety_improvement`. -/
def detectSafetyImprovement (lines : List String) : Bool :=
  lines.any (fun l => searchAnywhere safetyAt l.toList)

/-! ### Enumerations and results (source lines 25–76). -/

/-- `Confidence` (`smart_merge.py` lines 25–43). -/
inductive Confidence
| HIGH
| MEDIUM
| REVIEW
| LOW
deriving DecidableEq

/-- `ChangeType` (`smart_merge.py` lines 48–56). -/
inductive ChangeType
| WHITESPACE_ONLY
| INCLUDE_REORDER
| COMMENT_ONLY
| NULL_CHECK_ADDED
| ERROR_HANDLING
| BRACE_STYLE
| FUNCTIONAL
| MIXED
deriving DecidableEq

/-- `ResolutionResult` (`smart_merge.py` lines 59–65). -/
structure ResolutionResult where
  resolved_lines : List String
  confidence : Confidence
  change_type : ChangeType
  reason : String
deriving DecidableEq

/-! ### `classify_hunk_change` (source lines 170–219). -/

/-- The brace-line removal `[l for l in norm if l not in ('{', '}')]`. -/
def braceFilter (norm : List String) : List String :=
  norm.filter (fun l => !(l = curlyOpenStr || l = curlyCloseStr))

/-- `classify_hunk_change`: the ordered classification cascade.  The source's
lines 184–190 re-test `ours_inc and theirs_inc`, which is unreachable after
the test on line 181; the nested re-test is kept as the second
`INCLUDE_REORDER` branch. -/
def classifyHunkChange (oursLines theirsLines : List String) : ChangeType :=
  if isWhitespaceOnlyDiff oursLines theirsLines then .WHITESPACE_ONLY
  else if allIncludes oursLines && allIncludes theirsLines then .INCLUDE_REORDER
  else if allIncludes oursLines && allIncludes theirsLines then .INCLUDE_REORDER
  else if allComments oursLines && allComments theirsLines then .COMMENT_ONLY
  else
    let oursNull := hasNullCheck oursLines
    let theirsNull := hasNullCheck theirsLines
    if theirsNull && !oursNull then .NULL_CHECK_ADDED
    else if oursNull && !theirsNull then .NULL_CHECK_ADDED
    else
      let oursErr := hasErrorHandling oursLines
      let theirsErr := hasErrorHandling theirsLines
      if (theirsErr && !oursErr) || (oursErr && !theirsErr) then .ERROR_HANDLING
      else
        let normA := normNonEmpty oursLines
        let normB := normNonEmpty theirsLines
        if braceFilter normA = braceFilter normB ∧ normA ≠ normB then .BRACE_STYLE
        else .FUNCTIONAL

/-- `can_merge_both_sides` (source lines 222–241). -/
def canMergeBothSides (oursLines theirsLines : List String) : Bool :=
  if oursLines.isEmpty || theirsLines.isEmpty then true
  else if isWhitespaceOnlyDiff oursLines theirsLines then true
  else if allIncludes oursLines && allIncludes theirsLines then true
  else false

/-! ### `resolve_hunk` (source lines 308–462), in the configuration with no
LLM resolver (`llm_resolver = None`), in which case Strategy 7 never fires and
the function is pure. -/

/-- `resolve_hunk` with `llm_resolver = None`. -/
def resolveHunk (oursLines theirsLines : List String) (mode : String)
    (safetyPrefer : Bool) : ResolutionResult :=
  let changeType := classifyHunkChange oursLines theirsLines
  if changeType = .WHITESPACE_ONLY then
    let preferred := if mode = "cherry-pick" then theirsLines else oursLines
    ⟨preferred, .HIGH, changeType,
      "Changes are whitespace/formatting only - semantically identical"⟩
  else if changeType = .INCLUDE_REORDER then
    ⟨mergeIncludes oursLines theirsLines, .HIGH, changeType,
      "Both sides modify include order - merged and deduplicated"⟩
  else if changeType = .COMMENT_ONLY then
    let keepTheirs := (String.join theirsLines).length ≥ (String.join oursLines).length
    let preferred := if keepTheirs then theirsLines else oursLines
    let label := if keepTheirs then "theirs" else "ours"
    ⟨preferred, .HIGH, changeType,
      "Both sides are comment changes - kept " ++ label ++ " (more descriptive)"⟩
  else if changeType = .BRACE_STYLE then
    let keepOurs := oursLines.length ≥ theirsLines.length
    let preferred := if keepOurs then oursLines else theirsLines
    let label := if keepOurs then "ours" else "theirs"
    ⟨preferred, .MEDIUM, changeType,
      "Brace style difference - kept " ++ label ++ " (Allman-style preference)"⟩
  else
    let strat5 : Option ResolutionResult :=
      if safetyPrefer ∧ (changeType = .NULL_CHECK_ADDED ∨ changeType = .ERROR_HANDLING) then
        let oursSafe := detectSafetyImprovement oursLines
        let theirsSafe := detectSafetyImprovement theirsLines
        if theirsSafe ∧ ¬oursSafe then
          some ⟨theirsLines, .MEDIUM, changeType,
            "Theirs adds safety checks (NULL/error handling) - preferred for robustness"⟩
        else if oursSafe ∧ ¬theirsSafe then
          some ⟨oursLines, .MEDIUM, changeType,
            "Ours adds safety checks (NULL/error handling) - preferred for robustness"⟩
        else if oursSafe ∧ theirsSafe ∧ canMergeBothSides oursLines theirsLines then
          some ⟨oursLines ++ theirsLines, .MEDIUM, changeType,
            "Both sides add safety improvements - merged both"⟩
        else none
      else none
    match strat5 with
    | some r => r
    | none =>
      if canMergeBothSides oursLines theirsLines then
        let preferred := if mode = "cherry-pick" then theirsLines else oursLines
        ⟨preferred, .HIGH, changeType, "Changes are compatible - merged successfully"⟩
      else
        let preferred := if mode = "cherry-pick" then theirsLines else oursLines
        let label := if mode = "cherry-pick" then "theirs (incoming PR)" else "ours (current branch)"
        ⟨preferred, .REVIEW, changeType,
          "Functional conflict - fallback to " ++ label ++ ". Manual review required."⟩

example : classifyHunkChange ["  int x=1;  \n"] ["  int x=1;\n"] = .WHITESPACE_ONLY := by decide

example : classifyHunkChange ["#include <stdio.h>\n"] ["#include <stdio.h>\n", "#include <string.h>\n"] = .INCLUDE_REORDER := by decide

example : classifyHunkChange ["/* Old */\n"] ["/* New comment */\n"] = .COMMENT_ONLY := by decide

example : classifyHunkChange ["x = 42;\n"] ["if (ptr == NULL) return;\n"] = .NULL_CHECK_ADDED := by decide

example : classifyHunkChange ["return 1;\n"] ["return 2;\n"] = .FUNCTIONAL := by decide

example : detectSafetyImprovement ["if (ptr == NULL) return;\n"] = true := by decide

example : detectSafetyImprovement ["close(fd);\n"] = true := by decide

example : detectSafetyImprovement ["snprintf(buf, sz, fmt);\n"] = true := by decide

example : detectSafetyImprovement ["x = 42;\n"] = false := by decide

example : (resolveHunk ["  int x=1;  \n"] ["  int x=1;\n"] "cherry-pick" true).confidence = .HIGH := by decide

example : (resolveHunk ["x = 42;\n"] ["if (ptr == NULL) return;\n"] "cherry-pick" true).confidence = .MEDIUM := by decide

example : (resolveHunk ["x = 42;\n"] ["if (ptr == NULL) return;\n"] "cherry-pick" true).resolved_lines = ["if (ptr == NULL) return;\n"] := by decide

example : (resolveHunk ["return 1;\n"] ["return 2;\n"] "cherry-pick" true).confidence = .REVIEW := by decide

example : (resolveHunk ["/* Old */\n"] ["/* New comment */\n"] "cherry-pick" true).confidence = .HIGH := by decide

/-! ## The bounded external reasoner adapter (`scripts/llm_resolver.py`)

Network calls are modelled by a `ProviderOutcome` parameter (the provider
either returns a text or raises a connection error); wall-clock timing, token
accounting and the append-only feedback log are I/O and are not part of the
state observed by any claim. -/

/-- `LLMResolution` (`llm_resolver.py` lines 38–47); the `elapsed_seconds` and
`tokens_used` fields are timing/accounting metadata filled from the clock and
the provider response and are omitted from the model. -/
structure LLMResolution where
  lines : List String
  rationale : String
  model : String
  provider : String
  valid : Bool
deriving DecidableEq

/-- Number of occurrences of a character. -/
def countChar (c : Char) (l : List Char) : Nat :=
  (l.filter (fun d => d = c)).length

/-- `_validate_c_syntax` (source lines 97–120): balanced braces, parentheses
and brackets over the joined candidate text, and a non-blank candidate. -/
def validateCSyntaxCheck (lines : List String) : Bool :=
  let code := (String.join lines).toList
  if (countChar curlyOpen code : Int) - (countChar curlyClose code : Int) ≠ 0 then false
  else if (countChar '(' code : Int) - (countChar ')' code : Int) ≠ 0 then false
  else if (countChar '[' code : Int) - (countChar ']' code : Int) ≠ 0 then false
  else if pyStripList code = [] then false
  else true

/-- Does the character list start with the given literal characters? -/
def startsWithChars (p : List Char) (s : List Char) : Bool :=
  (matchChars p s).isSome

/-- The comment/preprocessor filter of `_extract_function_calls`: skip lines
whose stripped form starts with `#`, `//` or `/*`. -/
def skipLineForCalls (l : String) : Bool :=
  let s := pyStripList l.toList
  startsWithChars "#".toList s || startsWithChars "//".toList s || startsWithChars "/*".toList s

/-- Scanner state for `re.findall(r'\b([a-zA-Z_]\w*)\s*\(', line)`: while
inside a word run the state holds the run's first character and the reversed
run collected so far.  A run is reported iff it starts with a letter or
underscore (the `\b` excludes runs led by a digit) and is followed, after
optional whitespace, by `(`. -/
def extractCallsAux : Option (Char × List Char) → List Char → List String
| _, [] => []
| none, c :: rest =>
  if isWordChar c then extractCallsAux (some (c, [c])) rest
  else extractCallsAux none rest
| some (f, run), c :: rest =>
  if isWordChar c then extractCallsAux (some (f, c :: run)) rest
  else
    let isCall := (f.isAlpha || f = '_')
      && (match skipWS (c :: rest) with | '(' :: _ => true | _ => false)
    let tail := extractCallsAux none rest
    if isCall then String.mk run.reverse :: tail else tail

/-- All matches of `\b([a-zA-Z_]\w*)\s*\(` in one line. -/
def extractCallsScan (l : List Char) : List String :=
  extractCallsAux none l

/-- The C keywords removed by `_extract_function_calls`. -/
def cKeywords : List String :=
  ["if", "for", "while", "switch", "return", "sizeof", "typeof",
   "defined", "else", "case", "do"]

/-- `_extract_function_calls` (source lines 123–136).  Python returns a set;
here the set is represented by a list queried only through membership. -/
def extractFunctionCalls (lines : List String) : List String :=
  let calls := ((lines.filter (fun l => !skipLineForCalls l)).map
    (fun l => extractCallsScan l.toList)).flatten
  calls.filter (fun c => !(decide (c ∈ cKeywords)))

/-- The allow-list of `_validate_no_hallucination` (source lines 144–146). -/
def safeStdlib : List String :=
  ["printf", "fprintf", "snprintf", "strcmp", "strncmp", "strlen",
   "malloc", "calloc", "realloc", "free", "memset", "memcpy",
   "close", "fclose", "open", "fopen", "NULL"]

/-- `_validate_no_hallucination` (source lines 139–148). -/
def validateNoHallucination (resolved ours theirs : List String) : Bool :=
  let resolvedCalls := extractFunctionCalls resolved
  let allowedCalls := extractFunctionCalls ours ++ extractFunctionCalls theirs
  let newCalls := resolvedCalls.filter
    (fun c => !(decide (c ∈ allowedCalls)) && !(decide (c ∈ safeStdlib)))
  decide (newCalls.length = 0)

/-- `_validate_length` (source lines 151–154). -/
def validateLength (resolved ours theirs : List String) : Bool :=
  decide (resolved.length ≤ (max ours.length theirs.length) * 2 + 5)

/-! ### Markdown-fence stripping and line splitting
(`resolve_conflict`, source lines 564–579). -/

/-- Split into lines keeping the newline terminators (like Python
`str.splitlines(keepends=True)` restricted to `\n`). -/
def splitKeepEndsAux : List Char → List Char → List (List Char)
| acc, [] => if acc.isEmpty then [] else [acc.reverse]
| acc, '\n' :: rest => (acc.reverse ++ ['\n']) :: splitKeepEndsAux [] rest
| acc, c :: rest => splitKeepEndsAux (c :: acc) rest

/-- Split a character list into newline-terminated lines. -/
def splitKeepEnds (l : List Char) : List (List Char) :=
  splitKeepEndsAux [] l

/-- Lower-case ASCII letter. -/
def isLowerAlpha (c : Char) : Bool :=
  'a' ≤ c && c ≤ 'z'

/-- One match of `re.sub(r'^```[a-z]*\n', '', content, flags=re.MULTILINE)`:
since the match must end with the newline, a match is exactly a full line of
the shape ` ```[a-z]* `. -/
def isOpenFenceLine (l : List Char) : Bool :=
  match matchChars "```".toList l with
  | some r => decide (r.dropWhile isLowerAlpha = ['\n'])
  | none => false

/-- First fence substitution: drop every line matching `^```[a-z]*\n`. -/
def stripOpenFences (l : List Char) : List Char :=
  ((splitKeepEnds l).filter (fun line => !isOpenFenceLine line)).flatten

/-- `matchChars` never lengthens the remainder. -/
theorem matchChars_length_le (p s r : List Char) (h : matchChars p s = some r) :
    r.length ≤ s.length := by
  induction p generalizing s with
  | nil =>
    simp only [matchChars, Option.some.injEq] at h
    subst h
    exact Nat.le_refl _
  | cons a ps ih =>
    cases s with
    | nil => simp [matchChars] at h
    | cons c cs =>
      simp only [matchChars] at h
      split at h
      · exact Nat.le_trans (ih cs h) (Nat.le_succ _)
      · simp at h

/-- Greedy landing position of `\s*$` (without `re.MULTILINE` the `$` assertion
would differ, but this substitution is compiled with `re.MULTILINE`): the
longest whitespace prefix ending at the end of input or just before a
newline. -/
def wsRunBoundary (l : List Char) : Option Nat :=
  let run := l.takeWhile isSpaceChar
  if run.length = l.length then some run.length
  else
    match run.reverse.findIdx? (fun c => c = '\n') with
    | some j => some (run.length - 1 - j)
    | none => none

/-- The backtick character (written numerically). -/
def backtickChar : Char := Char.ofNat 96

/-- Lookahead for the closing-fence substitution: if the text after a newline
starts with three backticks followed by a whitespace run reaching a line end,
return the total number of characters the match consumes after the newline
(the three backticks plus the greedy whitespace run). -/
def closeFenceBoundary (rest : List Char) : Option Nat :=
  match rest with
  | a :: b :: c :: r2 =>
    if a = backtickChar && b = backtickChar && c = backtickChar then
      match wsRunBoundary r2 with
      | some p => some (3 + p)
      | none => none
    else none
  | _ => none

/-- Second fence substitution `re.sub(r'\n```\s*$', '', content,
flags=re.MULTILINE)`: remove each (leftmost, non-overlapping) occurrence of a
newline followed by three backticks followed by whitespace running greedily up
to a line end.  A positive first argument means "still dropping that many
consumed characters of the current match". -/
def stripCFAux : Nat → List Char → List Char
| Nat.succ p, _ :: restl => stripCFAux p restl
| Nat.succ _, [] => []
| 0, [] => []
| 0, '\n' :: rest =>
  match closeFenceBoundary rest with
  | some k => stripCFAux k rest
  | none => '\n' :: stripCFAux 0 rest
| 0, c :: rest => c :: stripCFAux 0 rest

/-- Apply the closing-fence substitution. -/
def stripCloseFences (l : List Char) : List Char :=
  stripCFAux 0 l

/-- Python `content.split('\n')`. -/
def splitOnNewlinesAux : List Char → List Char → List (List Char)
| acc, [] => [acc.reverse]
| acc, '\n' :: rest => acc.reverse :: splitOnNewlinesAux [] rest
| acc, c :: rest => splitOnNewlinesAux (c :: acc) rest

/-- Python `content.split('\n')`. -/
def splitOnNewlines (l : List Char) : List (List Char) :=
  splitOnNewlinesAux [] l

/-- The pop-while-blank loop at the end of the line assembly: drop trailing
lines whose `strip()` is empty. -/
def dropTrailingBlank (ls : List String) : List String :=
  (ls.reverse.dropWhile (fun l => pyStrip l = "")).reverse

/-- Lines 564–579 of `resolve_conflict`: strip markdown fences, split into
lines, append a newline to each piece, and drop trailing blank lines.  Each
piece produced by `split('\n')` contains no newline, so the source's
`line.endswith('\n')` tests are always false and the final
"ensure last line has a newline" fix-up never fires; both are therefore
modelled by appending the newline unconditionally. -/
def contentToLines (content : String) : List String :=
  let stripped := stripCloseFences (stripOpenFences content.toList)
  if pyStripList stripped = [] then []
  else
    let pieces := (splitOnNewlines stripped).map (fun p => String.mk p ++ "\n")
    dropTrailingBlank pieces

/-- Lines 581–622 of `resolve_conflict`: validate the candidate produced from
the provider text and build the `LLMResolution` (the elapsed/token metadata
and the feedback-log write are I/O and not modelled). -/
def mkResolutionFromContent (provider model : String) (content : String)
    (oursLines theirsLines : List String) : LLMResolution :=
  let resolvedLines := contentToLines content
  let syntaxOk := validateCSyntaxCheck resolvedLines
  let hallucOk := validateNoHallucination resolvedLines oursLines theirsLines
  let lengthOk := validateLength resolvedLines oursLines theirsLines
  let valid := syntaxOk && hallucOk && lengthOk
  let rejection :=
    if !syntaxOk then "Invalid C syntax (unbalanced braces/brackets)"
    else if !hallucOk then "LLM introduced new function calls not in either side"
    else "Response too long (exceeds 2x max side length)"
  let rationale :=
    if valid then
      provider ++ "/" ++ model ++ " merged " ++ toString oursLines.length ++ "+"
        ++ toString theirsLines.length ++ " lines -> "
        ++ toString resolvedLines.length ++ " lines"
    else "REJECTED: " ++ rejection
  ⟨if valid then resolvedLines else [], rationale, model, provider, valid⟩

/-- Outcome of one provider network call: a response text, or a connection
error (the only kind of exception the provider clients raise). -/
inductive ProviderOutcome
| ok (content : String)
| connError (message : String)
deriving DecidableEq

/-- `LLMResolver.resolve_conflict` (source lines 471–622): budget guard, call
counter increment, provider call, candidate validation.  The mutable
`self._call_count` is threaded explicitly; the returned triple is
(result, new call count, whether a provider call was attempted). -/
def resolveConflictRun (maxCalls callCount : Nat) (provider model : String)
    (oursLines theirsLines : List String) (outcome : ProviderOutcome) :
    Option LLMResolution × Nat × Bool :=
  if callCount ≥ maxCalls then (none, callCount, false)
  else
    match outcome with
    | .connError _ => (none, callCount + 1, true)
    | .ok content =>
      (some (mkResolutionFromContent provider model content oursLines theirsLines),
        callCount + 1, true)

/-- Case-sensitive substring containment (Python `in` on strings). -/
def isSubstrOf (pat : List Char) (l : List Char) : Bool :=
  searchAnywhere (fun s => (matchChars pat s).isSome) l

/-- `LLMResolver.evaluate_dependency` (source lines 419–469): budget guard,
counter increment, provider call; on success the reply is stripped,
upper-cased and scanned for `YES` / `YES_CRITICAL`; a connection error falls
back to (dependent, not critical).  Returns ((is_dependent, is_critical), new
call count, whether a provider call was attempted). -/
def evaluateDependencyRun (maxCalls callCount : Nat) (outcome : ProviderOutcome) :
    (Bool × Bool) × Nat × Bool :=
  if callCount ≥ maxCalls then ((true, false), callCount, false)
  else
    match outcome with
    | .connError _ => ((true, false), callCount + 1, true)
    | .ok content =>
      let c := (upperStr (pyStrip content)).toList
      ((isSubstrOf "YES".toList c, isSubstrOf "YES_CRITICAL".toList c),
        callCount + 1, true)

/-- One call into the resolver: either of the two public entry points that
share the `_call_count` budget. -/
inductive ResolverCall
| resolveConflictCall (provider model : String) (oursLines theirsLines : List String)
    (outcome : ProviderOutcome)
| evaluateDependencyCall (outcome : ProviderOutcome)

/-- Run a sequence of calls against one resolver instance, starting from the
given `_call_count`; returns the final count and how many provider calls were
actually attempted. -/
def runCalls (maxCalls : Nat) : Nat → List ResolverCall → Nat × Nat
| count, [] => (count, 0)
| count, c :: cs =>
  let step :=
    match c with
    | .resolveConflictCall p m o t out =>
      let r := resolveConflictRun maxCalls count p m o t out
      (r.2.1, r.2.2)
    | .evaluateDependencyCall out =>
      let r := evaluateDependencyRun maxCalls count out
      (r.2.1, r.2.2)
  let rest := runCalls maxCalls step.1 cs
  (rest.1, (if step.2 then 1 else 0) + rest.2)

example : contentToLines "x = 1;" = ["x = 1;\n"] := by decide

example : contentToLines "```c\nx = 1;\n```" = ["x = 1;\n"] := by decide

example : (mkResolutionFromContent "openai" "gpt-4o-mini" "x = 1;" ["x = 1;\n"] ["x = 2;\n"]).valid = true := by decide

example : (mkResolutionFromContent "openai" "gpt-4o-mini" "foo(x);" ["x = 1;\n"] ["x = 2;\n"]).valid = false := by decide

example : (evaluateDependencyRun 5 0 (.ok "YES_CRITICAL")).1 = (true, true) := by decide

example : (evaluateDependencyRun 5 0 (.ok "NO")).1 = (false, false) := by decide

/-! ## The hunk-aggregation state machine
(`rdkb-release-agent/scripts/resolve_conflicts.py`).

`resolve_modify_modify_smart` parses conflict markers line by line, resolves
each hunk with `smart_merge.resolve_hunk`, tracks whether any hunk's
confidence missed the configured minimum, and either writes the reassembled
file or reports fallback.  The run modelled is the pure one (no LLM resolver
configured); the file system is modelled by returning the content that would
be written. -/

/-- `_confidence_meets_minimum` (source lines 150–153).  The lookup table
`{"HIGH": 3, "MEDIUM": 2, "LOW": 1}` has no entry for `REVIEW`, so a `REVIEW`
confidence scores the `order.get` default 0, and a `"REVIEW"` minimum falls
back to the default 1. -/
def confOrderVal (c : Confidence) : Nat :=
  match c with
  | .HIGH => 3
  | .MEDIUM => 2
  | .LOW => 1
  | .REVIEW => 0

/-- `order.get(min_level.upper(), 1)` of `_confidence_meets_minimum`. -/
def minOrderVal (minLevel : String) : Nat :=
  if upperStr minLevel = "HIGH" then 3
  else if upperStr minLevel = "MEDIUM" then 2
  else if upperStr minLevel = "LOW" then 1
  else 1

/-- `_confidence_meets_minimum`. -/
def confidenceMeetsMinimum (confidence : Confidence) (minLevel : String) : Bool :=
  decide (confOrderVal confidence ≥ minOrderVal minLevel)

/-- Parser state of the marker loop in `resolve_modify_modify_smart`
(source lines 183–254): accumulated output lines, the `in_ours`/`in_theirs`
flags, the sides of the hunk being collected, the `any_below_min` flag and the
hunk counter. -/
structure SmartParseState where
  resolvedLines : List String
  inOurs : Bool
  inTheirs : Bool
  oursLines : List String
  theirsLines : List String
  anyBelowMin : Bool
  hunkIdx : Nat
deriving DecidableEq

/-- One line of the marker loop of `resolve_modify_modify_smart`.  On a
closing marker the hunk is resolved by `resolve_hunk` (with no LLM resolver)
and checked against the minimum confidence `min_conf_str =
args.min_confidence.upper()`. -/
def smartStep (mode minConfidence : String) (safetyPrefer : Bool)
    (st : SmartParseState) (line : String) : SmartParseState :=
  if startsWithChars "<<<<<<< ".toList line.toList then
    ⟨st.resolvedLines, true, st.inTheirs, [], [], st.anyBelowMin, st.hunkIdx⟩
  else if startsWithChars "=======".toList line.toList && st.inOurs then
    ⟨st.resolvedLines, false, true, st.oursLines, st.theirsLines, st.anyBelowMin, st.hunkIdx⟩
  else if startsWithChars ">>>>>>> ".toList line.toList && st.inTheirs then
    let result := resolveHunk st.oursLines st.theirsLines mode safetyPrefer
    ⟨st.resolvedLines ++ result.resolved_lines, st.inOurs, false, [], [],
      st.anyBelowMin || !confidenceMeetsMinimum result.confidence (upperStr minConfidence),
      st.hunkIdx + 1⟩
  else if st.inOurs then
    ⟨st.resolvedLines, st.inOurs, st.inTheirs, st.oursLines ++ [line], st.theirsLines,
      st.anyBelowMin, st.hunkIdx⟩
  else if st.inTheirs then
    ⟨st.resolvedLines, st.inOurs, st.inTheirs, st.oursLines, st.theirsLines ++ [line],
      st.anyBelowMin, st.hunkIdx⟩
  else
    ⟨st.resolvedLines ++ [line], st.inOurs, st.inTheirs, st.oursLines, st.theirsLines,
      st.anyBelowMin, st.hunkIdx⟩

/-- The initial parser state. -/
def smartInitState : SmartParseState :=
  ⟨[], false, false, [], [], false, 0⟩

/-- Outcome of `resolve_modify_modify_smart` on one file: the returned
`(success, below_confidence)` pair and, when the function reaches its final
write, the content written back to the file (`none` when nothing is
written). -/
structure SmartResolveOutcome where
  success : Bool
  belowConfidence : Bool
  written : Option (List String)
deriving DecidableEq

/-- `resolve_modify_modify_smart` (source lines 160–266) on the file's lines,
in the configuration with no LLM resolver: if the content has no
`"<<<<<<< "` marker the file is staged unchanged and `(True, False)` is
returned; otherwise the marker loop runs, and either some hunk fell below the
minimum — `(False, True)` with nothing written — or the reassembled lines are
written and `(True, False)` is returned. -/
def resolveModifyModifySmart (fileLines : List String) (mode minConfidence : String)
    (safetyPrefer : Bool) : SmartResolveOutcome :=
  if !(fileLines.any (fun l => isSubstrOf "<<<<<<< ".toList l.toList)) then
    ⟨true, false, none⟩
  else
    let final := fileLines.foldl (smartStep mode minConfidence safetyPrefer) smartInitState
    if final.anyBelowMin then ⟨false, true, none⟩
    else ⟨true, false, some final.resolvedLines⟩

/-- Scanner state that extracts the sequence of conflict hunks `(ours,
theirs)` a file parses into — the same marker traversal as `smartStep`,
keeping only the parsing components and the list of closed hunks.  Used to
state file-level properties hunk by hunk. -/
structure HunkScanState where
  inOurs : Bool
  inTheirs : Bool
  oursLines : List String
  theirsLines : List String
  hunks : List (List String × List String)
deriving DecidableEq

/-- One line of the hunk scanner (mirrors the branch structure of
`smartStep`). -/
def hunkScanStep (st : HunkScanState) (line : String) : HunkScanState :=
  if startsWithChars "<<<<<<< ".toList line.toList then
    ⟨true, st.inTheirs, [], [], st.hunks⟩
  else if startsWithChars "=======".toList line.toList && st.inOurs then
    ⟨false, true, st.oursLines, st.theirsLines, st.hunks⟩
  else if startsWithChars ">>>>>>> ".toList line.toList && st.inTheirs then
    ⟨st.inOurs, false, [], [], st.hunks ++ [(st.oursLines, st.theirsLines)]⟩
  else if st.inOurs then
    ⟨st.inOurs, st.inTheirs, st.oursLines ++ [line], st.theirsLines, st.hunks⟩
  else if st.inTheirs then
    ⟨st.inOurs, st.inTheirs, st.oursLines, st.theirsLines ++ [line], st.hunks⟩
  else
    ⟨st.inOurs, st.inTheirs, st.oursLines, st.theirsLines, st.hunks⟩

/-- The conflict hunks a file's lines parse into. -/
def parseHunks (fileLines : List String) : List (List String × List String) :=
  (fileLines.foldl hunkScanStep ⟨false, false, [], [], []⟩).hunks

/-! ### Spec-side confidence order
The specification orders confidences `Low < Review < Medium < High` and
phrases the file-abort rule in terms of that order; these two ranks are
written from the spec's words (not from the code) in order to state that
claim. -/

/-- Spec-side rank of a confidence under `Low < Review < Medium < High`. -/
def specConfRank (c : Confidence) : Nat :=
  match c with
  | .LOW => 0
  | .REVIEW => 1
  | .MEDIUM => 2
  | .HIGH => 3

/-- Spec-side rank of a configured minimum-confidence string (the CLI accepts
`high`, `medium`, `review`, `low`). -/
def specMinRank (minLevel : String) : Nat :=
  if minLevel = "high" then 3
  else if minLevel = "medium" then 2
  else if minLevel = "review" then 1
  else 0

example : parseHunks ["a\n", "<<<<<<< HEAD\n", "x\n", "=======\n", "y\n", ">>>>>>> pr\n", "b\n"] = [(["x\n"], ["y\n"])] := by decide

example : resolveModifyModifySmart ["a\n", "<<<<<<< HEAD\n", "return 1;\n", "=======\n", "return 2;\n", ">>>>>>> pr\n", "b\n"] "cherry-pick" "high" true = ⟨false, true, none⟩ := by decide

example : resolveModifyModifySmart ["a\n", "<<<<<<< HEAD\n", "return 1;\n", "=======\n", "return 2;\n", ">>>>>>> pr\n", "b\n"] "cherry-pick" "low" true = ⟨false, true, none⟩ := by decide

example : resolveModifyModifySmart ["a\n", "<<<<<<< HEAD\n", "  int x=1;  \n", "=======\n", "int x=1;\n", ">>>>>>> pr\n", "b\n"] "cherry-pick" "medium" true = ⟨true, false, some ["a\n", "int x=1;\n", "b\n"]⟩ := by decide

/-! ## Claim theorems -/

/-- **C10.** `classify_hunk_change` is symmetric in its two arguments: swapping
which side is "ours" never changes the assigned `ChangeType` — every condition
in the cascade is invariant under exchanging the two line lists. -/
theorem classifyHunkChange_symm (a b : List String) :
    classifyHunkChange a b = classifyHunkChange b a := by
  unfold classifyHunkChange
  have h1 : isWhitespaceOnlyDiff b a = isWhitespaceOnlyDiff a b := by
    unfold isWhitespaceOnlyDiff
    exact decide_eq_decide.mpr eq_comm
  have hbr : (braceFilter (normNonEmpty b) = braceFilter (normNonEmpty a) ∧
      normNonEmpty b ≠ normNonEmpty a) ↔
      (braceFilter (normNonEmpty a) = braceFilter (normNonEmpty b) ∧
      normNonEmpty a ≠ normNonEmpty b) := by
    constructor <;> rintro ⟨x, y⟩ <;> exact ⟨x.symm, fun h => y h.symm⟩
  rw [h1, Bool.and_comm (allIncludes b) (allIncludes a),
    Bool.and_comm (allComments b) (allComments a)]
  by_cases hw : isWhitespaceOnlyDiff a b = true
  · simp only [hw, if_true]
  · simp only [hw, if_false, Bool.not_eq_true] at *
    simp only [hw, Bool.false_eq_true, if_false]
    by_cases hi : (allIncludes a && allIncludes b) = true
    · simp only [hi, if_true]
    · simp only [Bool.not_eq_true] at hi
      simp only [hi, Bool.false_eq_true, if_false]
      by_cases hc : (allComments a && allComments b) = true
      · simp only [hc, if_true]
      · simp only [Bool.not_eq_true] at hc
        simp only [hc, Bool.false_eq_true, if_false]
        by_cases hna : hasNullCheck a = true <;> by_cases hnb : hasNullCheck b = true <;>
          simp only [Bool.not_eq_true] at hna hnb <;>
          simp only [hna, hnb, Bool.not_true, Bool.not_false, Bool.and_true,
            Bool.and_false, Bool.true_and, Bool.false_and, Bool.and_self,
            Bool.false_eq_true, if_false, if_true] <;>
        by_cases hea : hasErrorHandling a = true <;> by_cases heb : hasErrorHandling b = true <;>
          simp only [Bool.not_eq_true] at hea heb <;>
          simp only [hea, heb, Bool.not_true, Bool.not_false, Bool.and_true,
            Bool.and_false, Bool.true_and, Bool.false_and, Bool.and_self,
            Bool.or_self, Bool.or_false, Bool.false_or, Bool.true_or, Bool.or_true,
            Bool.false_eq_true, if_false, if_true] <;>
        rw [if_congr hbr rfl rfl]

/-! ### C6: `_is_whitespace_only_diff` versus the spec's `normalizedEquivalent` -/

/-- The predicate in the words of the claim/spec (`normalizedEquivalent`):
stripping all whitespace from every line of `a`, element by element — no line
dropped, added, or reordered — yields exactly the corresponding list for `b`.
Written from the spec's words, to be compared with the source's
`_is_whitespace_only_diff`. -/
def specNormalizedEquivalent (a b : List String) : Prop :=
  a.map normalizeWhitespace = b.map normalizeWhitespace

/-- `normNonEmpty` is "strip every line, then drop the lines that became
empty". -/
theorem normNonEmpty_eq_mapFilter (l : List String) :
    normNonEmpty l = (l.map normalizeWhitespace).filter (fun s => decide (s ≠ "")) := by
  induction l with
  | nil => rfl
  | cons x xs ih =>
    simp only [normNonEmpty, List.map_cons, List.filter_cons, ne_eq, decide_not] at *
    by_cases h : normalizeWhitespace x = ""
    · simp [h, ih]
    · simp [h, ih]

/-- **C6 (counterexample).** The claim's "no line may be dropped" fails: the
code's predicate accepts two lists of different lengths when the extra line is
whitespace-only, while the claim's element-by-element predicate rejects
them. -/
theorem isWhitespaceOnlyDiff_drops_blank_lines :
    isWhitespaceOnlyDiff ["x", " "] ["x"] = true ∧
    ¬ specNormalizedEquivalent ["x", " "] ["x"] := by
  constructor
  · decide
  · unfold specNormalizedEquivalent
    decide

/-- **C6 (amended).** `_is_whitespace_only_diff a b` is true iff stripping all
whitespace from every line and then **dropping the lines that became empty**
yields the same list for both sides — non-blank lines must agree element by
element and in order, while whitespace-only lines are ignored. -/
theorem isWhitespaceOnlyDiff_iff_strippedNonblank (a b : List String) :
    isWhitespaceOnlyDiff a b = true ↔
      (a.map normalizeWhitespace).filter (fun s => decide (s ≠ "")) =
      (b.map normalizeWhitespace).filter (fun s => decide (s ≠ "")) := by
  unfold isWhitespaceOnlyDiff
  rw [decide_eq_true_iff, normNonEmpty_eq_mapFilter, normNonEmpty_eq_mapFilter]

/-! ### C1: functional conflicts with no LLM resolver -/

/-- If the whitespace test holds, the cascade classifies `WHITESPACE_ONLY`. -/
theorem classify_of_ws (a b : List String) (hw : isWhitespaceOnlyDiff a b = true) :
    classifyHunkChange a b = .WHITESPACE_ONLY := by
  unfold classifyHunkChange
  rw [if_pos hw]

/-- If the whitespace test fails but both sides are include blocks, the cascade
classifies `INCLUDE_REORDER`. -/
theorem classify_of_includes (a b : List String)
    (hw : isWhitespaceOnlyDiff a b = false)
    (hi : (allIncludes a && allIncludes b) = true) :
    classifyHunkChange a b = .INCLUDE_REORDER := by
  unfold classifyHunkChange
  rw [if_neg (by simp [hw]), if_pos hi]

/-- A hunk not classified `WHITESPACE_ONLY` fails the whitespace test. -/
theorem ws_false_of_classify_ne (a b : List String)
    (h : classifyHunkChange a b ≠ .WHITESPACE_ONLY) :
    isWhitespaceOnlyDiff a b = false := by
  by_cases hw : isWhitespaceOnlyDiff a b = true
  · exact absurd (classify_of_ws a b hw) h
  · simpa using hw

/-- A hunk classified neither `WHITESPACE_ONLY` nor `INCLUDE_REORDER` fails the
both-sides-include test. -/
theorem includes_false_of_classify_ne (a b : List String)
    (h1 : classifyHunkChange a b ≠ .WHITESPACE_ONLY)
    (h2 : classifyHunkChange a b ≠ .INCLUDE_REORDER) :
    (allIncludes a && allIncludes b) = false := by
  have hw := ws_false_of_classify_ne a b h1
  by_cases hi : (allIncludes a && allIncludes b) = true
  · exact absurd (classify_of_includes a b hw hi) h2
  · simpa using hi

/-- For two non-empty sides that are neither whitespace-equivalent nor both
include blocks, `can_merge_both_sides` is false. -/
theorem canMerge_false_of (a b : List String) (ha : a ≠ []) (hb : b ≠ [])
    (hw : isWhitespaceOnlyDiff a b = false)
    (hi : (allIncludes a && allIncludes b) = false) :
    canMergeBothSides a b = false := by
  unfold canMergeBothSides
  have ha' : a.isEmpty = false := by simpa [List.isEmpty_iff] using ha
  have hb' : b.isEmpty = false := by simpa [List.isEmpty_iff] using hb
  simp [ha', hb', hw, hi]

/-- **C1 (counterexample).** A hunk with an empty "ours" side against
`return 2;` is classified `Functional`, yet `resolve_hunk` (with no LLM
resolver) resolves it through Strategy 6 with confidence `HIGH`, not `REVIEW`:
the claim "never confidence High or Medium" fails when one side is empty. -/
theorem resolveHunk_functional_empty_side_high :
    classifyHunkChange [] ["return 2;\n"] = .FUNCTIONAL ∧
    (resolveHunk [] ["return 2;\n"] "cherry-pick" true).confidence = .HIGH := by
  decide

/-- **C1 (amended).** For every hunk that `classify_hunk_change` classifies as
`Functional` and whose two sides are both non-empty, `resolve_hunk` with no
LLM resolver returns the `REVIEW`-confidence fallback keeping the
mode-indicated side (`theirs` for cherry-pick, `ours` otherwise). -/
theorem resolveHunk_functional_no_llm (ours theirs : List String) (mode : String)
    (sp : Bool) (h : classifyHunkChange ours theirs = .FUNCTIONAL)
    (ho : ours ≠ []) (ht : theirs ≠ []) :
    resolveHunk ours theirs mode sp =
      ⟨if mode = "cherry-pick" then theirs else ours, .REVIEW, .FUNCTIONAL,
        "Functional conflict - fallback to "
          ++ (if mode = "cherry-pick" then "theirs (incoming PR)" else "ours (current branch)")
          ++ ". Manual review required."⟩ := by
  have hw := ws_false_of_classify_ne ours theirs (by rw [h]; intro hcon; cases hcon)
  have hi := includes_false_of_classify_ne ours theirs
    (by rw [h]; intro hcon; cases hcon) (by rw [h]; intro hcon; cases hcon)
  have hcm := canMerge_false_of ours theirs ho ht hw hi
  unfold resolveHunk
  rw [h]
  simp [hcm]

/-- **C1 (witness).** The spec's Scenario 4 inputs reach the amended
conclusion. -/
theorem resolveHunk_functional_no_llm_witness :
    (resolveHunk ["return 1;\n"] ["return 2;\n"] "cherry-pick" true).confidence = .REVIEW ∧
    (resolveHunk ["return 1;\n"] ["return 2;\n"] "cherry-pick" true).resolved_lines = ["return 2;\n"] := by
  have h := resolveHunk_functional_no_llm ["return 1;\n"] ["return 2;\n"] "cherry-pick" true
    (by decide) (by decide) (by decide)
  rw [h]
  exact ⟨rfl, by decide⟩

/-! ### C5: both sides add safety improvements -/

/-- The claim's appendability condition in the spec's words: "neither side is
a strict subset/rewrite of the other".  Written from the spec, to be compared
with the code's `can_merge_both_sides`. -/
def specIndependentlyAppendable (a b : List String) : Prop :=
  ¬ a ⊆ b ∧ ¬ b ⊆ a

/-- A side matching the safety patterns is non-empty. -/
theorem detectSafety_ne_nil (l : List String) (h : detectSafetyImprovement l = true) :
    l ≠ [] := by
  intro hcon
  subst hcon
  simp [detectSafetyImprovement] at h

/-- **C5 (counterexample).** `free(a);` against `if (p == NULL) return;` is
classified `NullCheckAdded`, both sides are detected safety improvements, and
neither is a subset of the other — yet `resolve_hunk` (safety preference on)
returns the `REVIEW` fallback keeping `theirs`, not the `ours ++ theirs`
concatenation with confidence `Medium` that the claim predicts. -/
theorem resolveHunk_both_safety_not_concat :
    classifyHunkChange ["free(a);\n"] ["if (p == NULL) return;\n"] = .NULL_CHECK_ADDED ∧
    detectSafetyImprovement ["free(a);\n"] = true ∧
    detectSafetyImprovement ["if (p == NULL) return;\n"] = true ∧
    specIndependentlyAppendable ["free(a);\n"] ["if (p == NULL) return;\n"] ∧
    (resolveHunk ["free(a);\n"] ["if (p == NULL) return;\n"] "cherry-pick" true).resolved_lines
      ≠ ["free(a);\n"] ++ ["if (p == NULL) return;\n"] ∧
    (resolveHunk ["free(a);\n"] ["if (p == NULL) return;\n"] "cherry-pick" true).confidence
      ≠ .MEDIUM := by
  refine ⟨by decide, by decide, by decide, ?_, by decide, by decide⟩
  unfold specIndependentlyAppendable
  constructor <;> decide

/-- **C5 (amended).** When the hunk is classified `NullCheckAdded` or
`ErrorHandling` with safety preference enabled and **both** sides are detected
safety improvements, the code's appendability test `can_merge_both_sides` can
never hold (it requires an empty side, whitespace equivalence, or two include
blocks, each contradicting the hypotheses), so the concatenation branch is
unreachable and `resolve_hunk` returns the `REVIEW` fallback keeping the
mode-indicated side. -/
theorem resolveHunk_both_safety_review (ours theirs : List String) (mode : String)
    (h : classifyHunkChange ours theirs = .NULL_CHECK_ADDED ∨
      classifyHunkChange ours theirs = .ERROR_HANDLING)
    (hso : detectSafetyImprovement ours = true)
    (hst : detectSafetyImprovement theirs = true) :
    (resolveHunk ours theirs mode true).confidence = .REVIEW ∧
    (resolveHunk ours theirs mode true).resolved_lines
      = (if mode = "cherry-pick" then theirs else ours) := by
  have hne1 : classifyHunkChange ours theirs ≠ .WHITESPACE_ONLY := by
    rcases h with h | h <;> rw [h] <;> intro hcon <;> cases hcon
  have hne2 : classifyHunkChange ours theirs ≠ .INCLUDE_REORDER := by
    rcases h with h | h <;> rw [h] <;> intro hcon <;> cases hcon
  have hw := ws_false_of_classify_ne ours theirs hne1
  have hi := includes_false_of_classify_ne ours theirs hne1 hne2
  have hcm := canMerge_false_of ours theirs (detectSafety_ne_nil ours hso)
    (detectSafety_ne_nil theirs hst) hw hi
  rcases h with h | h <;>
    (unfold resolveHunk; rw [h]; simp [hso, hst, hcm])

/-- **C5 (witness).** The counterexample pair discharges the amended
theorem's hypotheses. -/
theorem resolveHunk_both_safety_review_witness :
    (resolveHunk ["free(a);\n"] ["if (p == NULL) return;\n"] "cherry-pick" true).confidence
      = .REVIEW :=
  (resolveHunk_both_safety_review ["free(a);\n"] ["if (p == NULL) return;\n"] "cherry-pick"
    (Or.inl (by decide)) (by decide) (by decide)).1

/-! ### C7: the brace-style rule -/

/-- The claim's normalization in the spec's words: remove **brace tokens** and
whitespace wherever they occur (character level) and compare what remains.
Written from the spec, to be compared with the code's line-level
`braceFilter`. -/
def specBraceNormalize (lines : List String) : List Char :=
  (String.join lines).toList.filter
    (fun c => !isSpaceChar c && !(c = curlyOpen) && !(c = curlyClose))

/-- C7 counterexample, "ours" side: `foo() {` (K&R style). -/
def braceKROurs : List String := ["foo() " ++ curlyOpenStr]

/-- C7 counterexample, "theirs" side: `foo()` with the brace on its own line
(Allman style). -/
def braceAllmanTheirs : List String := ["foo()", curlyOpenStr]

/-- **C7 (counterexample).** For `foo() {` against `foo()` / `{` no earlier
cascade rule fires, the two sides are identical after removing brace tokens
and whitespace, and they are not whitespace-identical — yet
`classify_hunk_change` returns `FUNCTIONAL`, not `BRACE_STYLE`: the code only
deletes whole normalized lines equal to a brace, so a brace attached to code
on one side defeats the rule. -/
theorem classify_brace_token_mismatch :
    specBraceNormalize braceKROurs = specBraceNormalize braceAllmanTheirs ∧
    normNonEmpty braceKROurs ≠ normNonEmpty braceAllmanTheirs ∧
    isWhitespaceOnlyDiff braceKROurs braceAllmanTheirs = false ∧
    (allIncludes braceKROurs && allIncludes braceAllmanTheirs) = false ∧
    (allComments braceKROurs && allComments braceAllmanTheirs) = false ∧
    hasNullCheck braceKROurs = false ∧ hasNullCheck braceAllmanTheirs = false ∧
    hasErrorHandling braceKROurs = false ∧ hasErrorHandling braceAllmanTheirs = false ∧
    classifyHunkChange braceKROurs braceAllmanTheirs = .FUNCTIONAL := by
  decide

/-- **C7 (amended).** When none of the earlier cascade rules fires, the code
assigns `BRACE_STYLE` iff the two sides' whitespace-normalized line lists
become identical after deleting the **lines that consist solely of a single
brace** (not after removing brace characters inside lines), provided the
normalized lists themselves differ. -/
theorem classify_braceStyle (a b : List String)
    (hw : isWhitespaceOnlyDiff a b = false)
    (hi : (allIncludes a && allIncludes b) = false)
    (hc : (allComments a && allComments b) = false)
    (hn1 : (hasNullCheck b && !hasNullCheck a) = false)
    (hn2 : (hasNullCheck a && !hasNullCheck b) = false)
    (he : ((hasErrorHandling b && !hasErrorHandling a)
      || (hasErrorHandling a && !hasErrorHandling b)) = false)
    (hbr : braceFilter (normNonEmpty a) = braceFilter (normNonEmpty b))
    (hne : normNonEmpty a ≠ normNonEmpty b) :
    classifyHunkChange a b = .BRACE_STYLE := by
  unfold classifyHunkChange
  rw [if_neg (by simp [hw]), if_neg (by simp [hi]), if_neg (by simp [hi]),
    if_neg (by simp [hc])]
  simp only [hn1, hn2, he, Bool.false_eq_true, if_false]
  rw [if_pos ⟨hbr, hne⟩]

/-- **C7 (witness).** A hunk that adds a brace-delimited block on its own
lines satisfies every hypothesis of the amended rule and is classified
`BRACE_STYLE`. -/
theorem classify_braceStyle_witness :
    classifyHunkChange ["if(x)", curlyOpenStr, "y;", curlyCloseStr] ["if(x)", "y;"]
      = .BRACE_STYLE := by
  exact classify_braceStyle _ _ (by decide) (by decide) (by decide) (by decide)
    (by decide) (by decide) (by decide) (by decide)

/-! ### C3: every accepted reasoner candidate passed all three checks -/

/-- **C3.** Whenever `resolve_conflict` returns an `LLMResolution` with
`valid = True`, its lines satisfy the three acceptance checks semantically:
the counts of each bracket pair are equal over the joined candidate text,
every call-like identifier of the candidate occurs among the call-like
identifiers of `ours`, of `theirs`, or in the fixed stdlib allow-list, and
the candidate has at most `2 * max(len(ours), len(theirs)) + 5` lines. -/
theorem llm_resolution_validated (mc cc : Nat) (provider model : String)
    (ours theirs : List String) (content : String) (res : LLMResolution)
    (nc : Nat) (att : Bool)
    (hrun : resolveConflictRun mc cc provider model ours theirs (.ok content)
      = (some res, nc, att))
    (hv : res.valid = true) :
    countChar curlyOpen (String.join res.lines).toList
      = countChar curlyClose (String.join res.lines).toList ∧
    countChar '(' (String.join res.lines).toList
      = countChar ')' (String.join res.lines).toList ∧
    countChar '[' (String.join res.lines).toList
      = countChar ']' (String.join res.lines).toList ∧
    (∀ c ∈ extractFunctionCalls res.lines,
      c ∈ extractFunctionCalls ours ∨ c ∈ extractFunctionCalls theirs ∨ c ∈ safeStdlib) ∧
    res.lines.length ≤ 2 * max ours.length theirs.length + 5 := by
  unfold resolveConflictRun at hrun
  by_cases hb : cc ≥ mc
  · rw [if_pos hb] at hrun
    cases hrun
  · rw [if_neg hb] at hrun
    have hres : res = mkResolutionFromContent provider model content ours theirs := by
      have := congrArg Prod.fst hrun
      simpa using this.symm
    subst hres
    unfold mkResolutionFromContent at hv ⊢
    simp only at hv ⊢
    rcases hva : (validateCSyntaxCheck (contentToLines content)
        && validateNoHallucination (contentToLines content) ours theirs
        && validateLength (contentToLines content) ours theirs) with _ | _
    · rw [hva] at hv
      simp at hv
    · have hl : (if true = true then contentToLines content else []) = contentToLines content := by
        simp
      rw [hl]
      have h3 : validateCSyntaxCheck (contentToLines content) = true ∧
          validateNoHallucination (contentToLines content) ours theirs = true ∧
          validateLength (contentToLines content) ours theirs = true := by
        have := hva
        simp only [Bool.and_eq_true] at this
        exact ⟨this.1.1, this.1.2, this.2⟩
      obtain ⟨hsyn, hhal, hlen⟩ := h3
      refine ⟨?_, ?_, ?_, ?_, ?_⟩
      · simp only [validateCSyntaxCheck] at hsyn
        split_ifs at hsyn with h1 h2 h3 h4
        omega
      · simp only [validateCSyntaxCheck] at hsyn
        split_ifs at hsyn with h1 h2 h3 h4
        omega
      · simp only [validateCSyntaxCheck] at hsyn
        split_ifs at hsyn with h1 h2 h3 h4
        omega
      · unfold validateNoHallucination at hhal
        simp only [decide_eq_true_eq, List.length_eq_zero] at hhal
        intro c hc
        have hp := List.filter_eq_nil_iff.mp hhal c hc
        by_cases h1 : c ∈ extractFunctionCalls ours ++ extractFunctionCalls theirs
        · rcases List.mem_append.mp h1 with h | h
          · exact Or.inl h
          · exact Or.inr (Or.inl h)
        · by_cases h2 : c ∈ safeStdlib
          · exact Or.inr (Or.inr h2)
          · exact absurd (by simp [h1, h2]) hp
      · unfold validateLength at hlen
        simp only [decide_eq_true_eq] at hlen
        omega

/-- **C3 (witness).** A concrete accepted candidate: `x = 1;` resolving the
conflict between `x = 1;` and `x = 2;` passes validation and satisfies the
bounded-growth conclusion. -/
theorem llm_resolution_validated_witness :
    (mkResolutionFromContent "openai" "gpt-4o-mini" "x = 1;"
      ["x = 1;\n"] ["x = 2;\n"]).lines.length ≤ 2 * max 1 1 + 5 := by
  have h := llm_resolution_validated 5 0 "openai" "gpt-4o-mini"
    ["x = 1;\n"] ["x = 2;\n"] "x = 1;"
    (mkResolutionFromContent "openai" "gpt-4o-mini" "x = 1;" ["x = 1;\n"] ["x = 2;\n"])
    1 true rfl (by decide)
  simpa using h.2.2.2.2

/-! ### C4: the per-run call budget -/

/-- Attempts made by a trace never exceed the remaining budget. -/
theorem runCalls_attempts_le (mc : Nat) (calls : List ResolverCall) :
    ∀ cc, (runCalls mc cc calls).2 ≤ mc - cc := by
  induction calls with
  | nil => intro cc; simp [runCalls]
  | cons c cs ih =>
    intro cc
    by_cases hb : cc ≥ mc
    · cases c with
      | resolveConflictCall p m o t out =>
        cases out <;>
          (simp only [runCalls, resolveConflictRun, if_pos hb]
           simpa using ih cc)
      | evaluateDependencyCall out =>
        cases out <;>
          (simp only [runCalls, evaluateDependencyRun, if_pos hb]
           simpa using ih cc)
    · have hlt : cc < mc := Nat.lt_of_not_le hb
      cases c with
      | resolveConflictCall p m o t out =>
        cases out <;>
          simp only [runCalls, resolveConflictRun, if_neg hb] <;>
          · have := ih (cc + 1)
            simp only [if_true]
            omega
      | evaluateDependencyCall out =>
        cases out <;>
          simp only [runCalls, evaluateDependencyRun, if_neg hb] <;>
          · have := ih (cc + 1)
            simp only [if_true]
            omega

/-- **C4.** The shared call budget: once `_call_count` has reached
`max_calls`, `resolve_conflict` returns `None` and `evaluate_dependency`
returns its default `(True, False)`, neither attempting a provider call and
neither changing the counter; consequently a resolver instance started at
count 0 attempts at most `max_calls` provider calls over any sequence of
calls to the two entry points. -/
theorem llm_call_budget :
    (∀ mc cc p m o t out, mc ≤ cc →
      resolveConflictRun mc cc p m o t out = (none, cc, false)) ∧
    (∀ mc cc out, mc ≤ cc →
      evaluateDependencyRun mc cc out = ((true, false), cc, false)) ∧
    (∀ mc calls, (runCalls mc 0 calls).2 ≤ mc) := by
  refine ⟨?_, ?_, ?_⟩
  · intro mc cc p m o t out h
    unfold resolveConflictRun
    rw [if_pos h]
  · intro mc cc out h
    unfold evaluateDependencyRun
    rw [if_pos h]
  · intro mc calls
    have := runCalls_attempts_le mc calls 0
    omega

/-- **C4 (witness).** With the budget exhausted both entry points return their
defaults without attempting a call, and a trace longer than the budget still
attempts at most `max_calls` provider calls. -/
theorem llm_call_budget_witness :
    resolveConflictRun 2 2 "openai" "gpt" ["a\n"] ["b\n"] (.ok "x") = (none, 2, false) ∧
    evaluateDependencyRun 2 2 (.ok "YES") = ((true, false), 2, false) ∧
    (runCalls 2 0 [.evaluateDependencyCall (.ok "YES"),
      .evaluateDependencyCall (.ok "NO"),
      .evaluateDependencyCall (.ok "YES")]).2 ≤ 2 :=
  ⟨llm_call_budget.1 2 2 "openai" "gpt" ["a\n"] ["b\n"] (.ok "x") (Nat.le_refl 2),
   llm_call_budget.2.1 2 2 (.ok "YES") (Nat.le_refl 2),
   llm_call_budget.2.2 2 _⟩

/-! ### C9: conservative default of `evaluate_dependency` -/

/-- **C9.** `evaluate_dependency` answers (dependent, not critical) in both
failure situations: with the budget already exhausted it returns
`(True, False)` without attempting a provider call, and when the provider
call raises a connection error it likewise returns `(True, False)` — the
question never resolves to "not dependent" or "critical" on failure. -/
theorem evaluateDependency_failure_default (mc cc : Nat) (out : ProviderOutcome)
    (msg : String) :
    (mc ≤ cc → evaluateDependencyRun mc cc out = ((true, false), cc, false)) ∧
    (evaluateDependencyRun mc cc (.connError msg)).1 = (true, false) := by
  constructor
  · intro h
    unfold evaluateDependencyRun
    rw [if_pos h]
  · unfold evaluateDependencyRun
    by_cases h : cc ≥ mc
    · rw [if_pos h]
    · rw [if_neg h]

/-- **C9 (witness).** Concrete instances of both failure situations. -/
theorem evaluateDependency_failure_default_witness :
    evaluateDependencyRun 3 3 (.ok "YES_CRITICAL") = ((true, false), 3, false) ∧
    (evaluateDependencyRun 3 0 (.connError "boom")).1 = (true, false) :=
  ⟨(evaluateDependency_failure_default 3 3 (.ok "YES_CRITICAL") "boom").1 (Nat.le_refl 3),
   (evaluateDependency_failure_default 3 0 (.ok "") "boom").2⟩

/-! ### C2: the file-level confidence threshold -/

/-- `resolve_hunk` never returns `LOW` confidence: every branch yields `HIGH`,
`MEDIUM` or `REVIEW`. -/
theorem resolveHunk_confidence_ne_low (ours theirs : List String) (mode : String)
    (sp : Bool) : (resolveHunk ours theirs mode sp).confidence ≠ .LOW := by
  simp only [resolveHunk]
  split_ifs <;> exact fun hcon => Confidence.noConfusion hcon

/-- The hunk-confidence flag accumulated by the marker loop equals the
"some parsed hunk misses the minimum" predicate over the scanned hunk list. -/
theorem foldl_smart_scan_rel (mode minConf : String) (sp : Bool) (lines : List String) :
    ∀ (st : SmartParseState) (hs : HunkScanState),
      st.inOurs = hs.inOurs → st.inTheirs = hs.inTheirs →
      st.oursLines = hs.oursLines → st.theirsLines = hs.theirsLines →
      st.anyBelowMin = hs.hunks.any (fun h =>
        !confidenceMeetsMinimum (resolveHunk h.1 h.2 mode sp).confidence (upperStr minConf)) →
      (lines.foldl (smartStep mode minConf sp) st).inOurs
          = (lines.foldl hunkScanStep hs).inOurs ∧
      (lines.foldl (smartStep mode minConf sp) st).inTheirs
          = (lines.foldl hunkScanStep hs).inTheirs ∧
      (lines.foldl (smartStep mode minConf sp) st).oursLines
          = (lines.foldl hunkScanStep hs).oursLines ∧
      (lines.foldl (smartStep mode minConf sp) st).theirsLines
          = (lines.foldl hunkScanStep hs).theirsLines ∧
      (lines.foldl (smartStep mode minConf sp) st).anyBelowMin
          = ((lines.foldl hunkScanStep hs).hunks.any (fun h =>
            !confidenceMeetsMinimum (resolveHunk h.1 h.2 mode sp).confidence (upperStr minConf))) := by
  induction lines with
  | nil =>
    intro st hs h1 h2 h3 h4 h5
    exact ⟨h1, h2, h3, h4, h5⟩
  | cons line rest ih =>
    intro st hs h1 h2 h3 h4 h5
    obtain ⟨rl, io, it, ol, tl, ab, hi⟩ := st
    obtain ⟨io2, it2, ol2, tl2, hk⟩ := hs
    simp only at h1 h2 h3 h4 h5
    subst h1 h2 h3 h4
    simp only [List.foldl_cons]
    refine ih _ _ ?_ ?_ ?_ ?_ ?_ <;>
      (unfold smartStep hunkScanStep
       split_ifs <;> simp [h5, List.any_append])

/-- A list whose scan produced a hunk contains an opening conflict marker. -/
theorem parseHunks_marker (lines : List String)
    (h : parseHunks lines ≠ []) :
    (lines.any (fun l => isSubstrOf "<<<<<<< ".toList l.toList)) = true := by
  by_contra hcon
  apply h
  have hall : ∀ l ∈ lines, startsWithChars "<<<<<<< ".toList l.toList = false := by
    intro l hl
    by_cases hs : startsWithChars "<<<<<<< ".toList l.toList = true
    · exfalso
      apply hcon
      rw [List.any_eq_true]
      refine ⟨l, hl, ?_⟩
      unfold isSubstrOf
      cases hchars : l.toList with
      | nil =>
        rw [hchars] at hs
        simp [startsWithChars, matchChars] at hs
      | cons c cs =>
        rw [hchars] at hs
        simp [searchAnywhere, startsWithChars] at hs ⊢
        exact Or.inl hs
    · simpa using hs
  unfold parseHunks
  have : ∀ (ls : List String), (∀ l ∈ ls, startsWithChars "<<<<<<< ".toList l.toList = false) →
      ∀ (hs : HunkScanState), hs.inOurs = false → hs.inTheirs = false →
      ls.foldl hunkScanStep hs = hs := by
    intro ls
    induction ls with
    | nil => intro _ hs _ _; rfl
    | cons l rest ih2 =>
      intro hall2 hs ho ht
      simp only [List.foldl_cons]
      have hl0 : startsWithChars "<<<<<<< ".toList l.toList = false :=
        hall2 l (List.mem_cons_self l rest)
      have hstep : hunkScanStep hs l = hs := by
        unfold hunkScanStep
        rw [if_neg (by rw [hl0]; simp), if_neg (by rw [ho]; simp),
          if_neg (by rw [ht]; simp), if_neg (by rw [ho]; simp),
          if_neg (by rw [ht]; simp)]
      rw [hstep]
      exact ih2 (fun x hx => hall2 x (by simp [hx])) hs ho ht
  rw [this lines hall ⟨false, false, [], [], []⟩ rfl rfl]

/-- If a reachable confidence (never `LOW`) is strictly below the configured
minimum in the spec's order `Low < Review < Medium < High`, the code's
`_confidence_meets_minimum` also rejects it. -/
theorem specLt_meets_false (conf : Confidence) (m : String)
    (hm : m = "high" ∨ m = "medium" ∨ m = "review" ∨ m = "low") :
    conf ≠ .LOW → specConfRank conf < specMinRank m →
    confidenceMeetsMinimum conf (upperStr m) = false := by
  rcases hm with rfl | rfl | rfl | rfl <;> cases conf <;> decide

/-- If the code's `_confidence_meets_minimum` accepts a reachable confidence
(never `LOW`), that confidence also meets the minimum in the spec's order. -/
theorem meets_implies_specLe (conf : Confidence) (m : String)
    (hm : m = "high" ∨ m = "medium" ∨ m = "review" ∨ m = "low") :
    conf ≠ .LOW → confidenceMeetsMinimum conf (upperStr m) = true →
    specMinRank m ≤ specConfRank conf := by
  rcases hm with rfl | rfl | rfl | rfl <;> cases conf <;> decide

/-- **C2.** File-level confidence threshold of `resolve_modify_modify_smart`
under the spec's total order `Low < Review < Medium < High`: if any parsed
hunk resolves with confidence strictly below the configured minimum, the
function returns `(False, True)` and writes nothing — no partial write
occurs; and whenever the resolved file content is written, every parsed
hunk's confidence meets the configured minimum. -/
theorem smart_resolve_confidence_threshold (fileLines : List String)
    (mode minConf : String) (sp : Bool)
    (hm : minConf = "high" ∨ minConf = "medium" ∨ minConf = "review" ∨ minConf = "low") :
    ((∃ h ∈ parseHunks fileLines,
        specConfRank (resolveHunk h.1 h.2 mode sp).confidence < specMinRank minConf) →
      resolveModifyModifySmart fileLines mode minConf sp = ⟨false, true, none⟩) ∧
    (∀ content,
      (resolveModifyModifySmart fileLines mode minConf sp).written = some content →
      ∀ h ∈ parseHunks fileLines,
        specMinRank minConf ≤ specConfRank (resolveHunk h.1 h.2 mode sp).confidence) := by
  have hrel := foldl_smart_scan_rel mode minConf sp fileLines smartInitState
    ⟨false, false, [], [], []⟩ rfl rfl rfl rfl (by simp [smartInitState])
  have hany : (fileLines.foldl (smartStep mode minConf sp) smartInitState).anyBelowMin
      = ((parseHunks fileLines).any (fun h =>
        !confidenceMeetsMinimum (resolveHunk h.1 h.2 mode sp).confidence (upperStr minConf))) := by
    unfold parseHunks
    exact hrel.2.2.2.2
  constructor
  · rintro ⟨h, hmem, hlt⟩
    have hmarker : (fileLines.any (fun l => isSubstrOf "<<<<<<< ".toList l.toList)) = true := by
      apply parseHunks_marker
      intro hnil
      rw [hnil] at hmem
      cases hmem
    have hbad : (parseHunks fileLines).any (fun h =>
        !confidenceMeetsMinimum (resolveHunk h.1 h.2 mode sp).confidence (upperStr minConf))
        = true := by
      rw [List.any_eq_true]
      refine ⟨h, hmem, ?_⟩
      rw [specLt_meets_false (resolveHunk h.1 h.2 mode sp).confidence minConf hm
        (resolveHunk_confidence_ne_low h.1 h.2 mode sp) hlt]
      rfl
    unfold resolveModifyModifySmart
    rw [hmarker]
    simp only [Bool.not_true, Bool.false_eq_true, if_false]
    rw [if_pos (hany.trans hbad)]
  · intro content hw h hmem
    unfold resolveModifyModifySmart at hw
    rcases hmarker : (fileLines.any (fun l => isSubstrOf "<<<<<<< ".toList l.toList)) with _ | _
    · rw [hmarker] at hw
      simp at hw
    · rw [hmarker] at hw
      simp only [Bool.not_true, Bool.false_eq_true, if_false] at hw
      rcases habm : (fileLines.foldl (smartStep mode minConf sp) smartInitState).anyBelowMin
          with _ | _
      · have hall : (parseHunks fileLines).any (fun h =>
            !confidenceMeetsMinimum (resolveHunk h.1 h.2 mode sp).confidence (upperStr minConf))
            = false := by
          rw [← hany]
          exact habm
        rw [List.any_eq_false] at hall
        have hmeets0 := hall h hmem
        rcases hcm : confidenceMeetsMinimum (resolveHunk h.1 h.2 mode sp).confidence
            (upperStr minConf) with _ | _
        · rw [hcm] at hmeets0
          simp at hmeets0
        · exact meets_implies_specLe (resolveHunk h.1 h.2 mode sp).confidence minConf hm
            (resolveHunk_confidence_ne_low h.1 h.2 mode sp) hcm
      · rw [habm] at hw
        simp at hw

/-- **C2 (witness).** A file with one `Functional` hunk (confidence `REVIEW`)
and minimum `high` aborts: the function returns `(False, True)` and writes
nothing. -/
theorem smart_resolve_confidence_threshold_witness :
    resolveModifyModifySmart ["a\n", "<<<<<<< HEAD\n", "return 1;\n", "=======\n",
      "return 2;\n", ">>>>>>> pr\n", "b\n"] "cherry-pick" "high" true
      = ⟨false, true, none⟩ := by
  apply (smart_resolve_confidence_threshold ["a\n", "<<<<<<< HEAD\n", "return 1;\n",
    "=======\n", "return 2;\n", ">>>>>>> pr\n", "b\n"] "cherry-pick" "high" true
    (Or.inl rfl)).1
  refine ⟨(["return 1;\n"], ["return 2;\n"]), by decide, by decide⟩

/-! ### C8: idempotence of `merge_includes`

The development below establishes, in order: (i) order lemmas for the
code-point comparison underlying the stable sort; (ii) stability, sortedness
and the stable-sort uniqueness principle for `pySorted`; (iii) the algebra of
the de-duplication pass; (iv) invariance of `RE_INCLUDE` matching under
trailing-newline changes; and finally the idempotence theorem. -/

/-- `Char.toNat` determines the character. -/
theorem charToNat_inj (a b : Char) (h : a.toNat = b.toNat) : a = b := by
  have := congrArg Char.ofNat h
  rwa [Char.ofNat_toNat, Char.ofNat_toNat] at this

/-- Totality of the code-point comparison. -/
theorem charListLe_total (a : List Char) : ∀ b : List Char,
    charListLe a b = true ∨ charListLe b a = true := by
  induction a with
  | nil => intro b; left; rfl
  | cons x xs ih =>
    intro b
    cases b with
    | nil => right; rfl
    | cons y ys =>
      by_cases h1 : x.toNat < y.toNat
      · left; simp [charListLe, h1]
      · by_cases h2 : y.toNat < x.toNat
        · right; simp [charListLe, h2]
        · rcases ih ys with h | h
          · left; simp [charListLe, h1, h2, h]
          · right; simp [charListLe, h1, h2, h]

/-- Antisymmetry of the code-point comparison. -/
theorem charListLe_antisymm (a : List Char) : ∀ b : List Char,
    charListLe a b = true → charListLe b a = true → a = b := by
  induction a with
  | nil =>
    intro b h1 h2
    cases b with
    | nil => rfl
    | cons y ys => simp [charListLe] at h2
  | cons x xs ih =>
    intro b h1 h2
    cases b with
    | nil => simp [charListLe] at h1
    | cons y ys =>
      by_cases hxy : x.toNat < y.toNat
      · simp [charListLe, hxy, Nat.lt_asymm hxy] at h2
      · by_cases hyx : y.toNat < x.toNat
        · simp [charListLe, hxy, hyx] at h1
        · have hx : x = y := charToNat_inj x y (by omega)
          subst hx
          simp [charListLe, hxy, hyx] at h1 h2
          rw [ih ys h1 h2]

/-- Transitivity of the code-point comparison. -/
theorem charListLe_trans (a : List Char) : ∀ b c : List Char,
    charListLe a b = true → charListLe b c = true → charListLe a c = true := by
  induction a with
  | nil => intro b c _ _; rfl
  | cons x xs ih =>
    intro b c h1 h2
    cases b with
    | nil => simp [charListLe] at h1
    | cons y ys =>
      cases c with
      | nil => simp [charListLe] at h2
      | cons z zs =>
        by_cases hxy : x.toNat < y.toNat <;> by_cases hyx : y.toNat < x.toNat <;>
          by_cases hyz : y.toNat < z.toNat <;> by_cases hzy : z.toNat < y.toNat <;>
          simp [charListLe, hxy, hyx, hyz, hzy] at h1 h2 ⊢ <;>
          first
          | omega
          | (first
              | (left; omega)
              | (right
                 constructor
                 · omega
                 · first
                   | (have hx : x = y := charToNat_inj x y (by omega)
                      subst hx
                      first
                        | exact h2
                        | (have hy : y = z := charToNat_inj y z (by omega)
                           subst hy
                           exact ih ys zs h1 h2)
                        | exact ih ys zs h1 h2)
                   | (have hy : y = z := charToNat_inj y z (by omega)
                      subst hy
                      exact h1)
                   | exact ih ys zs h1 h2))

/-- Totality of the key comparison. -/
theorem keyLe_total (a b : String) : keyLe a b = true ∨ keyLe b a = true :=
  charListLe_total (sortKey a).toList (sortKey b).toList

/-- Antisymmetry of the key comparison at the key level. -/
theorem keyLe_antisymm (a b : String) (h1 : keyLe a b = true)
    (h2 : keyLe b a = true) : sortKey a = sortKey b := by
  have h := charListLe_antisymm (sortKey a).toList (sortKey b).toList h1 h2
  exact String.ext h

/-- Transitivity of the key comparison. -/
theorem keyLe_trans (a b c : String) (h1 : keyLe a b = true)
    (h2 : keyLe b c = true) : keyLe a c = true :=
  charListLe_trans (sortKey a).toList (sortKey b).toList (sortKey c).toList h1 h2

/-- Keys determine the comparison. -/
theorem keyLe_congr (a b a2 b2 : String) (ha : sortKey a = sortKey a2)
    (hb : sortKey b = sortKey b2) : keyLe a b = keyLe a2 b2 := by
  unfold keyLe
  rw [ha, hb]

/-- Reflexivity of the code-point comparison. -/
theorem charListLe_refl (l : List Char) : charListLe l l = true := by
  induction l with
  | nil => rfl
  | cons x xs ih => simp [charListLe, ih]

/-- Reflexivity of the key comparison. -/
theorem keyLe_refl (a : String) : keyLe a a = true :=
  charListLe_refl (sortKey a).toList

/-- Sortedness by key, as used below. -/
def keySorted (l : List String) : Prop :=
  List.Pairwise (fun a b => keyLe a b = true) l

/-- The elements of a list with a given sort key, in order. -/
def keyFilter (k : String) (l : List String) : List String :=
  l.filter (fun y => decide (sortKey y = k))

/-- Insertion permutes with appending. -/
theorem insertSorted_perm (x : String) (l : List String) :
    List.Perm (insertSorted x l) (l ++ [x]) := by
  induction l with
  | nil => simp [insertSorted]
  | cons y ys ih =>
    unfold insertSorted
    by_cases h : keyLe y x = true
    · rw [if_pos h]
      simpa using List.Perm.cons y ih
    · rw [if_neg h]
      exact (List.perm_append_singleton x (y :: ys)).symm

/-- Insertion preserves sortedness. -/
theorem insertSorted_keySorted (x : String) (l : List String)
    (h : keySorted l) : keySorted (insertSorted x l) := by
  induction l with
  | nil => simp [insertSorted, keySorted]
  | cons y ys ih =>
    rcases List.pairwise_cons.mp h with ⟨hy, hys⟩
    unfold insertSorted
    by_cases hk : keyLe y x = true
    · rw [if_pos hk]
      rw [keySorted, List.pairwise_cons]
      constructor
      · intro z hz
        have hz2 := (insertSorted_perm x ys).mem_iff.mp hz
        rcases List.mem_append.mp hz2 with h2 | h2
        · exact hy z h2
        · have : z = x := by simpa using h2
          subst this
          exact hk
      · exact ih hys
    · rw [if_neg hk]
      have hxy : keyLe x y = true := by
        rcases keyLe_total x y with h2 | h2
        · exact h2
        · exact absurd h2 hk
      rw [keySorted, List.pairwise_cons]
      constructor
      · intro z hz
        rcases List.mem_cons.mp hz with rfl | hz2
        · exact hxy
        · exact keyLe_trans x y z hxy (hy z hz2)
      · exact h

/-- Key-class stability of insertion into a sorted list: the new element lands
after every existing element of its key class. -/
theorem insertSorted_keyFilter (x : String) (l : List String) (k : String)
    (hsort : keySorted l) :
    keyFilter k (insertSorted x l)
      = keyFilter k l ++ (if sortKey x = k then [x] else []) := by
  induction l with
  | nil =>
    by_cases h : sortKey x = k <;> simp [insertSorted, keyFilter, h]
  | cons y ys ih =>
    rcases List.pairwise_cons.mp hsort with ⟨hy, hys⟩
    unfold insertSorted
    by_cases hk : keyLe y x = true
    · rw [if_pos hk]
      have hmain := ih hys
      simp only [keyFilter] at hmain ⊢
      rw [List.filter_cons, hmain]
      by_cases hyk : sortKey y = k <;> simp [List.filter_cons, hyk]
    · rw [if_neg hk]
      by_cases hxk : sortKey x = k
      · have hnone : ∀ z ∈ y :: ys, ¬(sortKey z = k) := by
          intro z hz hzk
          have hyz : keyLe y z = true := by
            rcases List.mem_cons.mp hz with rfl | hz2
            · exact keyLe_refl z
            · exact hy z hz2
          have hzx : sortKey z = sortKey x := by rw [hzk, hxk]
          rw [keyLe_congr y z y x rfl hzx] at hyz
          exact hk hyz
        have hfil : List.filter (fun z => decide (sortKey z = k)) (y :: ys) = [] := by
          rw [List.filter_eq_nil_iff]
          intro a2 ha2
          simpa using hnone a2 ha2
        rw [if_pos hxk]
        simp only [keyFilter]
        rw [List.filter_cons, hfil]
        simp [hxk]
      · simp [keyFilter, List.filter_cons, hxk]

/-- The insertion run preserves sortedness of the accumulator. -/
theorem stableSortRun_keySorted (l : List String) :
    ∀ acc, keySorted acc → keySorted (stableSortRun l acc) := by
  induction l with
  | nil => intro acc h; exact h
  | cons x xs ih =>
    intro acc h
    exact ih (insertSorted x acc) (insertSorted_keySorted x acc h)

/-- Key-class stability of the insertion run. -/
theorem stableSortRun_keyFilter (l : List String) :
    ∀ acc k, keySorted acc →
      keyFilter k (stableSortRun l acc) = keyFilter k acc ++ keyFilter k l := by
  induction l with
  | nil => intro acc k _; simp [stableSortRun, keyFilter]
  | cons x xs ih =>
    intro acc k hacc
    have h1 := ih (insertSorted x acc) k (insertSorted_keySorted x acc hacc)
    rw [stableSortRun, h1, insertSorted_keyFilter x acc k hacc]
    by_cases hxk : sortKey x = k <;>
      simp [keyFilter, List.filter_cons, hxk, List.append_assoc]

/-- The insertion run permutes with appending. -/
theorem stableSortRun_perm (l : List String) :
    ∀ acc, List.Perm (stableSortRun l acc) (acc ++ l) := by
  induction l with
  | nil => intro acc; simp [stableSortRun]
  | cons x xs ih =>
    intro acc
    have h1 := ih (insertSorted x acc)
    have h2 : List.Perm (insertSorted x acc ++ xs) ((acc ++ [x]) ++ xs) :=
      (insertSorted_perm x acc).append_right xs
    have h3 : ((acc ++ [x]) ++ xs) = acc ++ (x :: xs) := by simp
    rw [stableSortRun]
    exact h1.trans (by rw [← h3]; exact h2)

/-- `pySorted` output is sorted. -/
theorem pySorted_keySorted (l : List String) : keySorted (pySorted l) :=
  stableSortRun_keySorted l [] (List.Pairwise.nil)

/-- `pySorted` preserves each key class (stability). -/
theorem pySorted_keyFilter (l : List String) (k : String) :
    keyFilter k (pySorted l) = keyFilter k l := by
  have := stableSortRun_keyFilter l [] k (List.Pairwise.nil)
  simpa [keyFilter, pySorted] using this

/-- `pySorted` permutes its input. -/
theorem pySorted_perm (l : List String) : List.Perm (pySorted l) l := by
  simpa using stableSortRun_perm l []

/-- Inserting an element whose key dominates the list appends it. -/
theorem insertSorted_append (x : String) (l : List String)
    (h : ∀ y ∈ l, keyLe y x = true) : insertSorted x l = l ++ [x] := by
  induction l with
  | nil => rfl
  | cons y ys ih =>
    unfold insertSorted
    rw [if_pos (h y (List.mem_cons_self y ys))]
    rw [ih (fun z hz => h z (List.mem_cons_of_mem y hz))]
    rfl

/-- The insertion run leaves an already-sorted extension unchanged. -/
theorem stableSortRun_of_keySorted (l : List String) :
    ∀ acc, keySorted (acc ++ l) → stableSortRun l acc = acc ++ l := by
  induction l with
  | nil => intro acc _; simp [stableSortRun]
  | cons x xs ih =>
    intro acc h
    have hsplit := List.pairwise_append.mp h
    have hins : insertSorted x acc = acc ++ [x] := by
      apply insertSorted_append
      intro y hy
      exact hsplit.2.2 y hy x (List.mem_cons_self x xs)
    rw [stableSortRun, hins]
    have h2 : keySorted ((acc ++ [x]) ++ xs) := by
      rw [List.append_assoc]
      simpa using h
    rw [ih (acc ++ [x]) h2]
    simp

/-- Sorting an already-sorted list is the identity. -/
theorem pySorted_of_keySorted (l : List String) (h : keySorted l) :
    pySorted l = l := by
  have := stableSortRun_of_keySorted l [] (by simpa using h)
  simpa [pySorted] using this

/-- Two sorted lists with the same key classes are equal: the stable-sort
uniqueness principle. -/
theorem keySorted_eq_of_keyFilter (l1 : List String) :
    ∀ l2, keySorted l1 → keySorted l2 →
      (∀ k, keyFilter k l1 = keyFilter k l2) → l1 = l2 := by
  induction l1 with
  | nil =>
    intro l2 _ _ hf
    cases l2 with
    | nil => rfl
    | cons b t2 =>
      have := hf (sortKey b)
      simp [keyFilter, List.filter_cons] at this
  | cons a t1 ih =>
    intro l2 h1 h2 hf
    cases l2 with
    | nil =>
      have := hf (sortKey a)
      simp [keyFilter, List.filter_cons] at this
    | cons b t2 =>
      rcases List.pairwise_cons.mp h1 with ⟨ha, ht1⟩
      rcases List.pairwise_cons.mp h2 with ⟨hb, ht2⟩
      have hab : sortKey a = sortKey b := by
        have hfa := hf (sortKey a)
        have hmem : a ∈ keyFilter (sortKey a) (b :: t2) := by
          rw [← hfa, keyFilter, List.mem_filter]
          exact ⟨List.mem_cons_self a t1, by simp⟩
        rw [keyFilter, List.mem_filter] at hmem
        have hamem : a ∈ b :: t2 := hmem.1
        have hle1 : keyLe b a = true := by
          rcases List.mem_cons.mp hamem with rfl | h3
          · exact keyLe_refl _
          · exact hb a h3
        have hfb := hf (sortKey b)
        have hmem2 : b ∈ keyFilter (sortKey b) (a :: t1) := by
          rw [hfb, keyFilter, List.mem_filter]
          exact ⟨List.mem_cons_self b t2, by simp⟩
        rw [keyFilter, List.mem_filter] at hmem2
        have hbmem : b ∈ a :: t1 := hmem2.1
        have hle2 : keyLe a b = true := by
          rcases List.mem_cons.mp hbmem with rfl | h3
          · exact keyLe_refl _
          · exact ha b h3
        exact keyLe_antisymm a b hle2 hle1
      have hcons := hf (sortKey a)
      rw [keyFilter, keyFilter, List.filter_cons, List.filter_cons] at hcons
      rw [if_pos (show (decide (sortKey a = sortKey a)) = true by simp),
        if_pos (show (decide (sortKey b = sortKey a)) = true by simp [hab])] at hcons
      injection hcons with hae htl
      subst hae
      have htf : ∀ k, keyFilter k t1 = keyFilter k t2 := by
        intro k
        have hk := hf k
        rw [keyFilter, keyFilter, List.filter_cons, List.filter_cons] at hk
        rw [keyFilter, keyFilter]
        by_cases hak : (decide (sortKey a = k)) = true
        · rw [if_pos hak, if_pos hak] at hk
          injection hk
        · rw [if_neg hak, if_neg hak] at hk
          exact hk
      rw [ih t2 ht1 ht2 htf]

/-- The set of normalized texts recorded after a de-duplication pass. -/
def seenAfter : List String → List String → List String
| seen, [] => seen
| seen, x :: xs =>
  let n := normalizeWhitespace x
  if n ∈ seen then seenAfter seen xs
  else seenAfter (n :: seen) xs

/-- De-duplication distributes over append via `seenAfter`. -/
theorem dedupByNorm_append (xs : List String) :
    ∀ seen ys, dedupByNorm seen (xs ++ ys)
      = dedupByNorm seen xs ++ dedupByNorm (seenAfter seen xs) ys := by
  induction xs with
  | nil => intro seen ys; simp [dedupByNorm, seenAfter]
  | cons x xs2 ih =>
    intro seen ys
    simp only [List.cons_append, dedupByNorm, seenAfter, List.append_eq]
    by_cases h : normalizeWhitespace x ∈ seen
    · simp only [if_pos h]
      rw [ih]
    · simp only [if_neg h]
      rw [ih]
      simp

/-- Membership in `seenAfter`. -/
theorem seenAfter_mem (xs : List String) : ∀ seen n,
    n ∈ seenAfter seen xs ↔ n ∈ seen ∨ ∃ x ∈ xs, normalizeWhitespace x = n := by
  induction xs with
  | nil => intro seen n; simp [seenAfter]
  | cons x xs2 ih =>
    intro seen n
    simp only [seenAfter]
    by_cases h : normalizeWhitespace x ∈ seen
    · rw [if_pos h, ih]
      constructor
      · rintro (h2 | ⟨y, hy, hn⟩)
        · exact Or.inl h2
        · exact Or.inr ⟨y, List.mem_cons_of_mem x hy, hn⟩
      · rintro (h2 | ⟨y, hy, hn⟩)
        · exact Or.inl h2
        · rcases List.mem_cons.mp hy with rfl | hy2
          · left; rw [← hn]; exact h
          · exact Or.inr ⟨y, hy2, hn⟩
    · rw [if_neg h, ih]
      constructor
      · rintro (h2 | ⟨y, hy, hn⟩)
        · rcases List.mem_cons.mp h2 with rfl | h3
          · exact Or.inr ⟨x, List.mem_cons_self x xs2, rfl⟩
          · exact Or.inl h3
        · exact Or.inr ⟨y, List.mem_cons_of_mem x hy, hn⟩
      · rintro (h2 | ⟨y, hy, hn⟩)
        · exact Or.inl (List.mem_cons_of_mem _ h2)
        · rcases List.mem_cons.mp hy with rfl | hy2
          · left; rw [← hn]; exact List.mem_cons_self _ _
          · exact Or.inr ⟨y, hy2, hn⟩

/-- Pairwise-distinct normalized texts. -/
def normsDistinct (l : List String) : Prop :=
  List.Pairwise (fun a b => normalizeWhitespace a ≠ normalizeWhitespace b) l

/-- De-duplication only keeps input elements. -/
theorem dedupByNorm_mem (ls : List String) :
    ∀ seen x, x ∈ dedupByNorm seen ls → x ∈ ls := by
  induction ls with
  | nil => intro seen x h; simp [dedupByNorm] at h
  | cons y ys ih =>
    intro seen x h
    simp only [dedupByNorm] at h
    by_cases hy : normalizeWhitespace y ∈ seen
    · rw [if_pos hy] at h
      exact List.mem_cons_of_mem y (ih seen x h)
    · rw [if_neg hy] at h
      rcases List.mem_cons.mp h with rfl | h2
      · exact List.mem_cons_self x ys
      · exact List.mem_cons_of_mem y (ih _ x h2)

/-- The de-duplicated list has pairwise-distinct norms, none of them in the
initial `seen` set. -/
theorem dedupByNorm_normsDistinct (ls : List String) :
    ∀ seen, normsDistinct (dedupByNorm seen ls)
      ∧ ∀ x ∈ dedupByNorm seen ls, normalizeWhitespace x ∉ seen := by
  induction ls with
  | nil => intro seen; exact ⟨List.Pairwise.nil, by intro x h; simp [dedupByNorm] at h⟩
  | cons y ys ih =>
    intro seen
    simp only [dedupByNorm]
    by_cases hy : normalizeWhitespace y ∈ seen
    · rw [if_pos hy]
      exact ih seen
    · rw [if_neg hy]
      obtain ⟨hd, hmem⟩ := ih (normalizeWhitespace y :: seen)
      constructor
      · rw [normsDistinct, List.pairwise_cons]
        refine ⟨?_, hd⟩
        intro z hz hcon
        exact hmem z hz (by rw [← hcon]; exact List.mem_cons_self _ _)
      · intro x hx
        rcases List.mem_cons.mp hx with rfl | h2
        · exact hy
        · exact fun hcon => hmem x h2 (List.mem_cons_of_mem _ hcon)

/-- On a norm-distinct list, de-duplication is filtering out the seen. -/
theorem dedupByNorm_eq_filter (ls : List String) (hd : normsDistinct ls) :
    ∀ seen, dedupByNorm seen ls
      = ls.filter (fun x => !(decide (normalizeWhitespace x ∈ seen))) := by
  induction ls with
  | nil => intro seen; rfl
  | cons y ys ih =>
    rcases List.pairwise_cons.mp hd with ⟨hy, hys⟩
    intro seen
    simp only [dedupByNorm, List.filter_cons]
    by_cases h : normalizeWhitespace y ∈ seen
    · rw [if_pos h, ih hys]
      simp [h]
    · rw [if_neg h, ih hys]
      have hcong : ∀ x ∈ ys,
          (!(decide (normalizeWhitespace x ∈ normalizeWhitespace y :: seen)))
            = (!(decide (normalizeWhitespace x ∈ seen))) := by
        intro x hx
        have hne : normalizeWhitespace x ≠ normalizeWhitespace y :=
          fun hcon => hy x hx hcon.symm
        by_cases h2 : normalizeWhitespace x ∈ seen
        · simp [h2]
        · simp [h2, List.mem_cons, hne]
      rw [List.filter_congr hcong]
      simp [h]

/-- De-duplicating a norm-distinct list against a disjoint `seen` keeps it. -/
theorem dedupByNorm_eq_self (ls : List String) (hd : normsDistinct ls)
    (seen : List String) (h : ∀ x ∈ ls, normalizeWhitespace x ∉ seen) :
    dedupByNorm seen ls = ls := by
  rw [dedupByNorm_eq_filter ls hd seen]
  apply List.filter_eq_self.mpr
  intro x hx
  simp [h x hx]

/-- De-duplicating entirely-seen input yields nothing. -/
theorem dedupByNorm_nil_of_seen (ls : List String) :
    ∀ seen, (∀ x ∈ ls, normalizeWhitespace x ∈ seen) → dedupByNorm seen ls = [] := by
  induction ls with
  | nil => intro seen _; rfl
  | cons y ys ih =>
    intro seen h
    simp only [dedupByNorm]
    rw [if_pos (h y (List.mem_cons_self y ys))]
    exact ih seen (fun x hx => h x (List.mem_cons_of_mem y hx))

/-- De-duplicating a doubled list equals de-duplicating it once. -/
theorem dedupByNorm_self_append (E : List String) :
    dedupByNorm [] (E ++ E) = dedupByNorm [] E := by
  rw [dedupByNorm_append]
  have h2 : dedupByNorm (seenAfter [] E) E = [] := by
    apply dedupByNorm_nil_of_seen
    intro x hx
    rw [seenAfter_mem]
    exact Or.inr ⟨x, hx, rfl⟩
  rw [h2]
  simp

/-- `dropWhile` over an append when the first part does not vanish. -/
theorem dropWhile_append_ne_nil (p : Char → Bool) (l m : List Char)
    (h : l.dropWhile p ≠ []) : (l ++ m).dropWhile p = l.dropWhile p ++ m := by
  induction l with
  | nil => simp [List.dropWhile] at h
  | cons c cs ih =>
    by_cases hc : p c
    · simp only [List.cons_append, List.dropWhile_cons, hc, if_true]
      simp only [List.dropWhile_cons, hc, if_true] at h
      exact ih h
    · simp only [List.cons_append, List.dropWhile_cons, hc]
      simp

/-- `dropWhile` over an append when the first part vanishes. -/
theorem dropWhile_append_nil (p : Char → Bool) (l m : List Char)
    (h : l.dropWhile p = []) : (l ++ m).dropWhile p = m.dropWhile p := by
  induction l with
  | nil => simp
  | cons c cs ih =>
    by_cases hc : p c
    · simp only [List.cons_append, List.dropWhile_cons, hc, if_true]
      simp only [List.dropWhile_cons, hc, if_true] at h
      exact ih h
    · simp only [List.dropWhile_cons, hc] at h
      simp at h

/-- `takeWhile` ignores an appended element that fails the predicate. -/
theorem takeWhile_append_single (p : Char → Bool) (l : List Char) (c : Char)
    (h : p c = false) : (l ++ [c]).takeWhile p = l.takeWhile p := by
  induction l with
  | nil => simp [List.takeWhile, h]
  | cons d ds ih =>
    by_cases hd : p d
    · simp only [List.cons_append, List.takeWhile_cons, hd, if_true]
      rw [ih]
    · simp [List.cons_append, List.takeWhile_cons, hd]

/-- A successful literal match extends along an appended suffix. -/
theorem matchChars_append (p : List Char) :
    ∀ s r t, matchChars p s = some r → matchChars p (s ++ t) = some (r ++ t) := by
  induction p with
  | nil =>
    intro s r t h
    simp only [matchChars, Option.some.injEq] at h
    subst h
    rfl
  | cons a ps ih =>
    intro s r t h
    cases s with
    | nil => simp [matchChars] at h
    | cons c cs =>
      simp only [matchChars] at h ⊢
      by_cases hca : c = a
      · rw [if_pos hca] at h ⊢
        exact ih cs r t h
      · rw [if_neg hca] at h
        cases h

/-- A failed literal match of a newline-free pattern stays failed when a
newline is appended. -/
theorem matchChars_append_newline_none (p : List Char) (hp : ∀ c ∈ p, c ≠ '\n') :
    ∀ s, matchChars p s = none → matchChars p (s ++ ['\n']) = none := by
  induction p with
  | nil => intro s h; simp [matchChars] at h
  | cons a ps ih =>
    intro s h
    cases s with
    | nil =>
      simp only [List.nil_append, matchChars]
      rw [if_neg]
      intro hcon
      exact hp a (List.mem_cons_self a ps) hcon.symm
    | cons c cs =>
      simp only [matchChars] at h ⊢
      by_cases hca : c = a
      · rw [if_pos hca] at h ⊢
        exact ih (fun d hd => hp d (List.mem_cons_of_mem a hd)) cs h
      · rw [if_neg hca]

/-- `hasIncludeCloser` ignores a trailing newline. -/
theorem hasIncludeCloser_append_newline (l : List Char) :
    hasIncludeCloser (l ++ ['\n']) = hasIncludeCloser l := by
  unfold hasIncludeCloser
  rw [takeWhile_append_single _ l '\n' (by simp)]

/-- Equation for `reIncludeOpener` on a computed head. -/
theorem reIncludeOpener_cons (r3 d : _) (r4 : List Char)
    (h : r3.dropWhile isSpaceChar = d :: r4) :
    reIncludeOpener r3 = ((d = '<' || d = '\"') && hasIncludeCloser r4) := by
  unfold reIncludeOpener
  rw [h]

/-- Equation for `reIncludeOpener` on an exhausted input. -/
theorem reIncludeOpener_nil (r3 : List Char) (h : r3.dropWhile isSpaceChar = []) :
    reIncludeOpener r3 = false := by
  unfold reIncludeOpener
  rw [h]

/-- `reIncludeOpener` ignores a trailing newline. -/
theorem reIncludeOpener_append_newline (r3 : List Char) :
    reIncludeOpener (r3 ++ ['\n']) = reIncludeOpener r3 := by
  cases hdw : r3.dropWhile isSpaceChar with
  | nil =>
    rw [reIncludeOpener_nil r3 hdw, reIncludeOpener_nil (r3 ++ ['\n'])]
    rw [dropWhile_append_nil isSpaceChar r3 ['\n'] hdw]
    rfl
  | cons d r4 =>
    rw [reIncludeOpener_cons r3 d r4 hdw]
    rw [reIncludeOpener_cons (r3 ++ ['\n']) d (r4 ++ ['\n'])]
    · rw [hasIncludeCloser_append_newline r4]
    · rw [dropWhile_append_ne_nil isSpaceChar r3 ['\n'] (by rw [hdw]; simp), hdw]
      rfl

/-- `reIncludeAfterSharp` ignores a trailing newline. -/
theorem reIncludeAfterSharp_append_newline (r1 : List Char) :
    reIncludeAfterSharp (r1 ++ ['\n']) = reIncludeAfterSharp r1 := by
  cases hdw : r1.dropWhile isSpaceChar with
  | nil =>
    unfold reIncludeAfterSharp
    rw [dropWhile_append_nil isSpaceChar r1 ['\n'] hdw, hdw]
    rfl
  | cons y r2 =>
    unfold reIncludeAfterSharp
    rw [dropWhile_append_ne_nil isSpaceChar r1 ['\n'] (by rw [hdw]; simp), hdw]
    cases hmc : matchChars "include".toList (y :: r2) with
    | none =>
      rw [matchChars_append_newline_none "include".toList (by decide) _ hmc]
    | some res =>
      rw [matchChars_append "include".toList (y :: r2) res ['\n'] hmc]
      cases res with
      | nil => rfl
      | cons c2 r3 =>
        simp only [List.cons_append]
        by_cases hc2 : isSpaceChar c2 = true
        · rw [if_pos hc2, if_pos hc2]
          exact reIncludeOpener_append_newline r3
        · rw [if_neg hc2, if_neg hc2]

/-- `RE_INCLUDE` matching is invariant under appending a newline. -/
theorem reIncludeMatch_append_newline (l : List Char) :
    reIncludeMatch (l ++ ['\n']) = reIncludeMatch l := by
  unfold reIncludeMatch
  cases hdw : l.dropWhile isSpaceChar with
  | nil =>
    rw [dropWhile_append_nil isSpaceChar l ['\n'] hdw]
    rfl
  | cons c r1 =>
    rw [dropWhile_append_ne_nil isSpaceChar l ['\n'] (by rw [hdw]; simp), hdw]
    simp only [List.cons_append]
    by_cases hc : c = '#'
    · rw [if_pos hc, if_pos hc]
      exact reIncludeAfterSharp_append_newline r1
    · rw [if_neg hc, if_neg hc]

/-- `Char.ofNat` on a code point below the surrogate range round-trips. -/
theorem ofNat_toNat_valid (n : Nat) (h : n < 55296) : (Char.ofNat n).toNat = n := by
  unfold Char.ofNat
  rw [dif_pos (Or.inl (by omega : n < 55296))]
  rfl

/-- Only the double-quote character lower-cases to a double quote. -/
theorem toLower_eq_quote (c : Char) (h : Char.toLower c = Char.ofNat 34) :
    c = Char.ofNat 34 := by
  unfold Char.toLower at h
  simp only [ge_iff_le] at h
  split at h
  · exfalso
    have h2 := congrArg Char.toNat h
    rw [ofNat_toNat_valid (c.toNat + 32) (by omega)] at h2
    rw [ofNat_toNat_valid 34 (by omega)] at h2
    omega
  · exact h

/-- An element that fails the predicate survives `dropWhile`. -/
theorem mem_dropWhile_of_mem (p : Char → Bool) (l : List Char) (c : Char)
    (hc : c ∈ l) (hp : p c = false) : c ∈ l.dropWhile p := by
  have h3 : c ∈ l.takeWhile p ++ l.dropWhile p := by
    rw [List.takeWhile_append_dropWhile]; exact hc
  rcases List.mem_append.mp h3 with h1 | h2
  · exact absurd (List.mem_takeWhile_imp h1) (by simp [hp])
  · exact h2

/-- A double quote occurs in the stripped text iff it occurs in the line:
stripping removes only whitespace. -/
theorem quote_mem_pyStripList (l : List Char) :
    ('\"' ∈ pyStripList l) ↔ '\"' ∈ l := by
  have hsp : isSpaceChar '\"' = false := by decide
  unfold pyStripList
  constructor
  · intro h
    have h1 : '\"' ∈ (l.dropWhile isSpaceChar).reverse.dropWhile isSpaceChar :=
      List.mem_reverse.mp h
    have h2 : '\"' ∈ (l.dropWhile isSpaceChar).reverse :=
      (List.dropWhile_sublist _).mem h1
    exact (List.dropWhile_sublist _).mem (List.mem_reverse.mp h2)
  · intro h
    apply List.mem_reverse.mpr
    apply mem_dropWhile_of_mem _ _ _ _ hsp
    apply List.mem_reverse.mpr
    exact mem_dropWhile_of_mem _ _ _ h hsp

/-- A line contains a double quote iff its sort key does: the key strips only
whitespace and lower-casing maps no other character onto the quote. -/
theorem hasQuote_iff_key (x : String) :
    hasCharStr '\"' x = true ↔ '\"' ∈ (sortKey x).toList := by
  have hkey : (sortKey x).toList = (pyStripList x.toList).map Char.toLower := rfl
  rw [hkey]
  have hmap : ('\"' ∈ (pyStripList x.toList).map Char.toLower)
      ↔ '\"' ∈ pyStripList x.toList := by
    constructor
    · intro h
      rcases List.mem_map.mp h with ⟨c, hc, hlc⟩
      have : c = '\"' := toLower_eq_quote c hlc
      rw [← this]; exact hc
    · intro h
      exact List.mem_map.mpr ⟨'\"', h, by decide⟩
  rw [hmap, quote_mem_pyStripList]
  unfold hasCharStr
  simp [List.contains]

/-- `dropWhile` is idempotent. -/
theorem dropWhile_idem (p : Char → Bool) (l : List Char) :
    (l.dropWhile p).dropWhile p = l.dropWhile p := by
  induction l with
  | nil => rfl
  | cons c cs ih =>
    by_cases hc : p c
    · simp [List.dropWhile_cons, hc, ih]
    · simp [List.dropWhile_cons, hc]

/-- `rstrip('\n')` is idempotent. -/
theorem pyRstripNewlineList_idem (l : List Char) :
    pyRstripNewlineList (pyRstripNewlineList l) = pyRstripNewlineList l := by
  unfold pyRstripNewlineList
  rw [List.reverse_reverse, dropWhile_idem]

/-- A line is its rstripped prefix followed by a run of newlines. -/
theorem rstrip_decomp (l : List Char) :
    ∃ k, l = pyRstripNewlineList l ++ List.replicate k '\n' := by
  have hl : l = pyRstripNewlineList l
      ++ (l.reverse.takeWhile (fun c => c = '\n')).reverse := by
    unfold pyRstripNewlineList
    conv_lhs => rw [← l.reverse_reverse,
      ← List.takeWhile_append_dropWhile (fun c => decide (c = '\n')) l.reverse]
    rw [List.reverse_append]
  have hrep : (l.reverse.takeWhile (fun c => c = '\n')).reverse
      = List.replicate (l.reverse.takeWhile (fun c => c = '\n')).reverse.length '\n' := by
    apply List.eq_replicate_of_mem
    intro b hb
    have := List.mem_takeWhile_imp (List.mem_reverse.mp hb)
    simpa using this
  exact ⟨_, by rw [← hrep]; exact hl⟩

/-- `RE_INCLUDE` matching ignores a run of trailing newlines. -/
theorem reIncludeMatch_append_replicate (k : Nat) (l : List Char) :
    reIncludeMatch (l ++ List.replicate k '\n') = reIncludeMatch l := by
  induction k with
  | zero => simp
  | succ n ih =>
    rw [List.replicate_succ', ← List.append_assoc, reIncludeMatch_append_newline, ih]

/-- `RE_INCLUDE` matching is invariant under `rstrip('\n')`. -/
theorem reIncludeMatch_rstrip (l : List Char) :
    reIncludeMatch (pyRstripNewlineList l) = reIncludeMatch l := by
  obtain ⟨k, hk⟩ := rstrip_decomp l
  conv_rhs => rw [hk]
  rw [reIncludeMatch_append_replicate]

/-- `rstrip('\n')` absorbs an appended newline. -/
theorem rstrip_append_newline (l : List Char) :
    pyRstripNewlineList (l ++ ['\n']) = pyRstripNewlineList l := by
  unfold pyRstripNewlineList
  rw [List.reverse_append]
  simp [List.dropWhile_cons]

/-- Every line kept by `_extract_includes` matches `RE_INCLUDE` and carries no
trailing newline. -/
theorem mem_extractIncludes (lines : List String) (x : String)
    (hx : x ∈ extractIncludes lines) :
    reIncludeMatch x.toList = true ∧ pyRstripNewlineList x.toList = x.toList := by
  unfold extractIncludes at hx
  rcases List.mem_map.mp hx with ⟨y, hy, rfl⟩
  rcases List.mem_filter.mp hy with ⟨_, hmatch⟩
  have htl : (pyRstripNewline y).toList = pyRstripNewlineList y.toList := rfl
  constructor
  · rw [htl, reIncludeMatch_rstrip]
    exact hmatch
  · rw [htl, pyRstripNewlineList_idem]

/-- The assembly tail of `merge_includes` as a function of the de-duplicated
include list: split into system/local/other groups, sort the first two
case-insensitively, and append a newline to every output line. -/
def includeAssemble (merged : List String) : List String :=
  let systemInc := merged.filter (fun i => hasCharStr '<' i && hasCharStr '>' i)
  let localInc := merged.filter (fun i => hasCharStr '\"' i)
  let otherInc := merged.filter (fun i => !(decide (i ∈ systemInc)) && !(decide (i ∈ localInc)))
  (pySorted localInc ++ pySorted systemInc ++ otherInc).map (fun line => line ++ "\n")

/-- `merge_includes` factors through the assembly tail. -/
theorem mergeIncludes_eq_assemble (a b : List String) :
    mergeIncludes a b
      = includeAssemble (dedupByNorm [] (extractIncludes a ++ extractIncludes b)) := rfl

/-- The system-include group of `merge_includes`. -/
def sysFilter (merged : List String) : List String :=
  merged.filter (fun i => hasCharStr '<' i && hasCharStr '>' i)

/-- The local-include group of `merge_includes`. -/
def locFilter (merged : List String) : List String :=
  merged.filter (fun i => hasCharStr '\"' i)

/-- The leftover group of `merge_includes`. -/
def othFilter (merged : List String) : List String :=
  merged.filter (fun i => !(decide (i ∈ sysFilter merged)) && !(decide (i ∈ locFilter merged)))

/-- The assembly tail, written with the named groups. -/
theorem includeAssemble_eq (merged : List String) :
    includeAssemble merged
      = (pySorted (locFilter merged) ++ pySorted (sysFilter merged)
          ++ othFilter merged).map (fun line => line ++ "\n") := rfl

/-- On a norm-distinct list, equal norms force equal elements. -/
theorem normsDistinct_inj (l : List String) (h : normsDistinct l) (x y : String)
    (hx : x ∈ l) (hy : y ∈ l)
    (hn : normalizeWhitespace x = normalizeWhitespace y) : x = y := by
  by_contra hne
  exact List.Pairwise.forall
    (fun a b hab => fun e => hab e.symm) h hx hy hne hn

/-- `keyFilter` commutes with any other filter. -/
theorem keyFilter_filter (k : String) (p : String → Bool) (l : List String) :
    keyFilter k (l.filter p) = (keyFilter k l).filter p := by
  unfold keyFilter
  rw [List.filter_filter, List.filter_filter]
  apply List.filter_congr
  intro x _
  cases hp : p x <;> simp [hp]

/-- Members of the sorted local group: in the input and quote-bearing. -/
theorem mem_pySorted_loc (E : List String) (x : String)
    (hx : x ∈ pySorted (locFilter E)) : x ∈ E ∧ hasCharStr '\"' x = true := by
  have h1 : x ∈ locFilter E := (pySorted_perm (locFilter E)).mem_iff.mp hx
  exact List.mem_filter.mp h1

/-- Members of the sorted system group: in the input, with both angle
brackets. -/
theorem mem_pySorted_sys (E : List String) (x : String)
    (hx : x ∈ pySorted (sysFilter E)) :
    x ∈ E ∧ (hasCharStr '<' x && hasCharStr '>' x) = true := by
  have h1 : x ∈ sysFilter E := (pySorted_perm (sysFilter E)).mem_iff.mp hx
  exact List.mem_filter.mp h1

/-- Members of the leftover group: in the input, in neither named group. -/
theorem mem_othFilter (E : List String) (x : String) (hx : x ∈ othFilter E) :
    x ∈ E ∧ x ∉ sysFilter E ∧ x ∉ locFilter E := by
  rcases List.mem_filter.mp hx with ⟨h1, h2⟩
  simp only [Bool.and_eq_true, Bool.not_eq_true', decide_eq_false_iff_not] at h2
  exact ⟨h1, h2.1, h2.2⟩

/-- Everything the assembly tail lists comes from the de-duplicated input. -/
theorem mem_assemble_core (E : List String) (x : String)
    (hx : x ∈ pySorted (locFilter E) ++ pySorted (sysFilter E) ++ othFilter E) :
    x ∈ E := by
  rcases List.mem_append.mp hx with h12 | h3
  · rcases List.mem_append.mp h12 with h1 | h2
    · exact (mem_pySorted_loc E x h1).1
    · exact (mem_pySorted_sys E x h2).1
  · exact (mem_othFilter E x h3).1

/-- Extracting includes back out of the assembled output recovers the grouped
list: every emitted line matches `RE_INCLUDE`, and stripping the appended
newline undoes the append. -/
theorem extractIncludes_assemble (E : List String)
    (hinc : ∀ x ∈ E, reIncludeMatch x.toList = true
      ∧ pyRstripNewlineList x.toList = x.toList) :
    extractIncludes (includeAssemble E)
      = pySorted (locFilter E) ++ pySorted (sysFilter E) ++ othFilter E := by
  rw [includeAssemble_eq]
  unfold extractIncludes
  rw [List.filter_map]
  have hfil : (pySorted (locFilter E) ++ pySorted (sysFilter E) ++ othFilter E).filter
      ((fun l => reIncludeMatch l.toList) ∘ fun line => line ++ "\n")
      = pySorted (locFilter E) ++ pySorted (sysFilter E) ++ othFilter E := by
    apply List.filter_eq_self.mpr
    intro x hx
    have hxE := mem_assemble_core E x hx
    have htl : ((x ++ "\n").toList) = x.toList ++ ['\n'] := rfl
    show reIncludeMatch (x ++ "\n").toList = true
    rw [htl, reIncludeMatch_append_newline]
    exact (hinc x hxE).1
  rw [hfil, List.map_map]
  have hid : ∀ x ∈ pySorted (locFilter E) ++ pySorted (sysFilter E) ++ othFilter E,
      (pyRstripNewline ∘ fun line => line ++ "\n") x = x := by
    intro x hx
    have hxE := mem_assemble_core E x hx
    show pyRstripNewline (x ++ "\n") = x
    have h1 : (pyRstripNewline (x ++ "\n")).toList
        = pyRstripNewlineList (x.toList ++ ['\n']) := rfl
    have h2 : pyRstripNewlineList (x.toList ++ ['\n']) = x.toList := by
      rw [rstrip_append_newline]
      exact (hinc x hxE).2
    have h3 : (pyRstripNewline (x ++ "\n")).toList = x.toList := by rw [h1, h2]
    have h4 := congrArg String.mk h3
    simpa using h4
  rw [List.map_congr_left hid]
  simp

/-- De-duplicating the assembled list keeps the local group and the leftovers,
and drops from the system group exactly the quote-bearing lines already
emitted in the local group. -/
theorem dedup_assemble (E : List String) (hE : normsDistinct E) :
    dedupByNorm [] (pySorted (locFilter E) ++ pySorted (sysFilter E) ++ othFilter E)
      = pySorted (locFilter E)
        ++ (pySorted (sysFilter E)).filter (fun x => !(hasCharStr '\"' x))
        ++ othFilter E := by
  have hsym : ∀ {a b : String},
      normalizeWhitespace a ≠ normalizeWhitespace b →
      normalizeWhitespace b ≠ normalizeWhitespace a :=
    fun h => fun e => h e.symm
  have hlocD : normsDistinct (pySorted (locFilter E)) :=
    List.Pairwise.perm (List.Pairwise.filter _ hE) (pySorted_perm (locFilter E)).symm hsym
  have hsysD : normsDistinct (pySorted (sysFilter E)) :=
    List.Pairwise.perm (List.Pairwise.filter _ hE) (pySorted_perm (sysFilter E)).symm hsym
  have hothD : normsDistinct (othFilter E) := List.Pairwise.filter _ hE
  rw [dedupByNorm_append, dedupByNorm_append]
  have h1 : dedupByNorm [] (pySorted (locFilter E)) = pySorted (locFilter E) :=
    dedupByNorm_eq_self _ hlocD [] (by intro x _; simp)
  have h2 : dedupByNorm (seenAfter [] (pySorted (locFilter E))) (pySorted (sysFilter E))
      = (pySorted (sysFilter E)).filter (fun x => !(hasCharStr '\"' x)) := by
    rw [dedupByNorm_eq_filter _ hsysD]
    apply List.filter_congr
    intro x hx
    obtain ⟨hxE, _⟩ := mem_pySorted_sys E x hx
    have hiff : normalizeWhitespace x ∈ seenAfter [] (pySorted (locFilter E))
        ↔ hasCharStr '\"' x = true := by
      rw [seenAfter_mem]
      constructor
      · rintro (h | ⟨y, hy, hn⟩)
        · simp at h
        · obtain ⟨hyE, hyq⟩ := mem_pySorted_loc E y hy
          rw [← normsDistinct_inj E hE y x hyE hxE hn]
          exact hyq
      · intro hq
        refine Or.inr ⟨x, ?_, rfl⟩
        exact (pySorted_perm (locFilter E)).mem_iff.mpr
          (List.mem_filter.mpr ⟨hxE, hq⟩)
    cases hq : hasCharStr '\"' x with
    | true => simp [hiff.mpr hq]
    | false =>
      have : normalizeWhitespace x ∉ seenAfter [] (pySorted (locFilter E)) := by
        intro hcon
        rw [hiff.mp hcon] at hq
        cases hq
      simp [this]
  have h3 : dedupByNorm
      (seenAfter [] (pySorted (locFilter E) ++ pySorted (sysFilter E)))
      (othFilter E) = othFilter E := by
    apply dedupByNorm_eq_self _ hothD
    intro x hx
    obtain ⟨hxE, hxs, hxl⟩ := mem_othFilter E x hx
    rw [seenAfter_mem]
    rintro (h | ⟨y, hy, hn⟩)
    · simp at h
    · rcases List.mem_append.mp hy with hy1 | hy2
      · obtain ⟨hyE, hyq⟩ := mem_pySorted_loc E y hy1
        rw [normsDistinct_inj E hE y x hyE hxE hn] at hyq
        exact hxl (List.mem_filter.mpr ⟨hxE, hyq⟩)
      · obtain ⟨hyE, hyq⟩ := mem_pySorted_sys E y hy2
        rw [normsDistinct_inj E hE y x hyE hxE hn] at hyq
        exact hxs (List.mem_filter.mpr ⟨hxE, hyq⟩)
  rw [h1, h2, h3]

/-- `keyFilter` distributes over append. -/
theorem keyFilter_append (k : String) (x y : List String) :
    keyFilter k (x ++ y) = keyFilter k x ++ keyFilter k y := by
  unfold keyFilter
  exact List.filter_append _ _

/-- The local group of the de-duplicated assembled list is the sorted local
group again. -/
theorem locFilter_assembled (E : List String) :
    locFilter (pySorted (locFilter E)
        ++ (pySorted (sysFilter E)).filter (fun x => !(hasCharStr '\"' x))
        ++ othFilter E)
      = pySorted (locFilter E) := by
  show (pySorted (locFilter E)
        ++ (pySorted (sysFilter E)).filter (fun x => !(hasCharStr '\"' x))
        ++ othFilter E).filter (fun i => hasCharStr '\"' i)
      = pySorted (locFilter E)
  rw [List.filter_append, List.filter_append]
  have h1 : (pySorted (locFilter E)).filter (fun i => hasCharStr '\"' i)
      = pySorted (locFilter E) :=
    List.filter_eq_self.mpr (fun x hx => (mem_pySorted_loc E x hx).2)
  have h2 : ((pySorted (sysFilter E)).filter (fun x => !(hasCharStr '\"' x))).filter
      (fun i => hasCharStr '\"' i) = [] := by
    apply List.filter_eq_nil_iff.mpr
    intro x hx
    rcases List.mem_filter.mp hx with ⟨_, hq⟩
    simp only [Bool.not_eq_true'] at hq
    simp [hq]
  have h3 : (othFilter E).filter (fun i => hasCharStr '\"' i) = [] := by
    apply List.filter_eq_nil_iff.mpr
    intro x hx
    obtain ⟨hxE, _, hxl⟩ := mem_othFilter E x hx
    intro hq
    exact hxl (List.mem_filter.mpr ⟨hxE, hq⟩)
  rw [h1, h2, h3]
  simp

/-- The system group of the de-duplicated assembled list: the angle-bracket
part of the sorted local group followed by the quote-free sorted system
group. -/
theorem sysFilter_assembled (E : List String) :
    sysFilter (pySorted (locFilter E)
        ++ (pySorted (sysFilter E)).filter (fun x => !(hasCharStr '\"' x))
        ++ othFilter E)
      = (pySorted (locFilter E)).filter (fun i => hasCharStr '<' i && hasCharStr '>' i)
        ++ (pySorted (sysFilter E)).filter (fun x => !(hasCharStr '\"' x)) := by
  show (pySorted (locFilter E)
        ++ (pySorted (sysFilter E)).filter (fun x => !(hasCharStr '\"' x))
        ++ othFilter E).filter (fun i => hasCharStr '<' i && hasCharStr '>' i)
      = (pySorted (locFilter E)).filter (fun i => hasCharStr '<' i && hasCharStr '>' i)
        ++ (pySorted (sysFilter E)).filter (fun x => !(hasCharStr '\"' x))
  rw [List.filter_append, List.filter_append]
  have h2 : ((pySorted (sysFilter E)).filter (fun x => !(hasCharStr '\"' x))).filter
      (fun i => hasCharStr '<' i && hasCharStr '>' i)
      = (pySorted (sysFilter E)).filter (fun x => !(hasCharStr '\"' x)) := by
    apply List.filter_eq_self.mpr
    intro x hx
    rcases List.mem_filter.mp hx with ⟨hxs, _⟩
    exact (mem_pySorted_sys E x hxs).2
  have h3 : (othFilter E).filter (fun i => hasCharStr '<' i && hasCharStr '>' i) = [] := by
    apply List.filter_eq_nil_iff.mpr
    intro x hx
    obtain ⟨hxE, hxs, _⟩ := mem_othFilter E x hx
    intro ha
    exact hxs (List.mem_filter.mpr ⟨hxE, ha⟩)
  rw [h2, h3]
  simp

/-- The leftover group of the de-duplicated assembled list is the original
leftover group. -/
theorem othFilter_assembled (E : List String) :
    othFilter (pySorted (locFilter E)
        ++ (pySorted (sysFilter E)).filter (fun x => !(hasCharStr '\"' x))
        ++ othFilter E)
      = othFilter E := by
  show (pySorted (locFilter E)
        ++ (pySorted (sysFilter E)).filter (fun x => !(hasCharStr '\"' x))
        ++ othFilter E).filter (fun i =>
          !(decide (i ∈ sysFilter (pySorted (locFilter E)
            ++ (pySorted (sysFilter E)).filter (fun x => !(hasCharStr '\"' x))
            ++ othFilter E)))
          && !(decide (i ∈ locFilter (pySorted (locFilter E)
            ++ (pySorted (sysFilter E)).filter (fun x => !(hasCharStr '\"' x))
            ++ othFilter E))))
      = othFilter E
  simp only [sysFilter_assembled E, locFilter_assembled E]
  rw [List.filter_append, List.filter_append]
  have h1 : (pySorted (locFilter E)).filter (fun i =>
      !(decide (i ∈ (pySorted (locFilter E)).filter
          (fun i => hasCharStr '<' i && hasCharStr '>' i)
        ++ (pySorted (sysFilter E)).filter (fun x => !(hasCharStr '\"' x))))
      && !(decide (i ∈ pySorted (locFilter E)))) = [] := by
    apply List.filter_eq_nil_iff.mpr
    intro x hx
    simp [hx]
  have h2 : ((pySorted (sysFilter E)).filter (fun x => !(hasCharStr '\"' x))).filter
      (fun i =>
      !(decide (i ∈ (pySorted (locFilter E)).filter
          (fun i => hasCharStr '<' i && hasCharStr '>' i)
        ++ (pySorted (sysFilter E)).filter (fun x => !(hasCharStr '\"' x))))
      && !(decide (i ∈ pySorted (locFilter E)))) = [] := by
    apply List.filter_eq_nil_iff.mpr
    intro x hx
    have hmem : x ∈ (pySorted (locFilter E)).filter
          (fun i => hasCharStr '<' i && hasCharStr '>' i)
        ++ (pySorted (sysFilter E)).filter (fun x => !(hasCharStr '\"' x)) :=
      List.mem_append_right _ hx
    simp [hmem]
  have h3 : (othFilter E).filter (fun i =>
      !(decide (i ∈ (pySorted (locFilter E)).filter
          (fun i => hasCharStr '<' i && hasCharStr '>' i)
        ++ (pySorted (sysFilter E)).filter (fun x => !(hasCharStr '\"' x))))
      && !(decide (i ∈ pySorted (locFilter E)))) = othFilter E := by
    apply List.filter_eq_self.mpr
    intro x hx
    obtain ⟨hxE, hxs, hxl⟩ := mem_othFilter E x hx
    have hnA : x ∉ pySorted (locFilter E) := by
      intro hcon
      exact hxl ((pySorted_perm (locFilter E)).mem_iff.mp hcon)
    have hnAB : x ∉ (pySorted (locFilter E)).filter
          (fun i => hasCharStr '<' i && hasCharStr '>' i)
        ++ (pySorted (sysFilter E)).filter (fun x => !(hasCharStr '\"' x)) := by
      intro hcon
      rcases List.mem_append.mp hcon with hc1 | hc2
      · exact hnA (List.mem_filter.mp hc1).1
      · exact hxs ((pySorted_perm (sysFilter E)).mem_iff.mp (List.mem_filter.mp hc2).1)
    simp [hnA, hnAB]
  rw [h1, h2, h3]
  simp

/-- Re-sorting the reshuffled system group restores the sorted system group:
a sort-key class either contains a quote in every line or in none, so the
angle-bracket lines pulled out of the local group and the quote-free lines
are exactly complementary key classes. -/
theorem pySorted_sys_assembled (E : List String) :
    pySorted ((pySorted (locFilter E)).filter (fun i => hasCharStr '<' i && hasCharStr '>' i)
        ++ (pySorted (sysFilter E)).filter (fun x => !(hasCharStr '\"' x)))
      = pySorted (sysFilter E) := by
  apply keySorted_eq_of_keyFilter _ _ (pySorted_keySorted _) (pySorted_keySorted _)
  intro k
  rw [pySorted_keyFilter, pySorted_keyFilter, keyFilter_append]
  by_cases hk : '\"' ∈ k.toList
  · have hBq : keyFilter k ((pySorted (sysFilter E)).filter
        (fun x => !(hasCharStr '\"' x))) = [] := by
      rw [keyFilter_filter]
      apply List.filter_eq_nil_iff.mpr
      intro x hx
      rcases List.mem_filter.mp hx with ⟨_, hxk⟩
      have hkx : sortKey x = k := of_decide_eq_true hxk
      have hq : hasCharStr '\"' x = true :=
        (hasQuote_iff_key x).mpr (by rw [hkx]; exact hk)
      simp [hq]
    have hApa : keyFilter k ((pySorted (locFilter E)).filter
        (fun i => hasCharStr '<' i && hasCharStr '>' i)) = keyFilter k (sysFilter E) := by
      rw [keyFilter_filter, pySorted_keyFilter]
      unfold locFilter sysFilter
      rw [keyFilter_filter, keyFilter_filter, List.filter_filter]
      apply List.filter_congr
      intro x hx
      rcases List.mem_filter.mp hx with ⟨_, hxk⟩
      have hkx : sortKey x = k := of_decide_eq_true hxk
      have hq : hasCharStr '\"' x = true :=
        (hasQuote_iff_key x).mpr (by rw [hkx]; exact hk)
      simp [hq]
    rw [hBq, hApa]
    simp
  · have hApa : keyFilter k ((pySorted (locFilter E)).filter
        (fun i => hasCharStr '<' i && hasCharStr '>' i)) = [] := by
      have hA : keyFilter k (pySorted (locFilter E)) = [] := by
        rw [pySorted_keyFilter]
        unfold locFilter keyFilter
        rw [List.filter_filter]
        apply List.filter_eq_nil_iff.mpr
        intro x _
        intro hcon
        simp only [Bool.and_eq_true] at hcon
        exact hk (by rw [← of_decide_eq_true hcon.1]
                     exact (hasQuote_iff_key x).mp hcon.2)
      rw [keyFilter_filter, hA]
      rfl
    have hBq : keyFilter k ((pySorted (sysFilter E)).filter
        (fun x => !(hasCharStr '\"' x))) = keyFilter k (sysFilter E) := by
      rw [keyFilter_filter, pySorted_keyFilter]
      apply List.filter_eq_self.mpr
      intro x hx
      rcases List.mem_filter.mp hx with ⟨_, hxk⟩
      have hkx : sortKey x = k := of_decide_eq_true hxk
      cases hq : hasCharStr '\"' x with
      | true =>
        exact absurd ((hasQuote_iff_key x).mp hq) (by rw [hkx]; exact hk)
      | false => simp
    rw [hApa, hBq]
    simp

/-- On a norm-distinct list of rstripped include lines, the whole of
`merge_includes`'s assembly tail is a fixed point of `merge_includes`. -/
theorem includeAssemble_idem (E : List String) (hE : normsDistinct E)
    (hinc : ∀ x ∈ E, reIncludeMatch x.toList = true
      ∧ pyRstripNewlineList x.toList = x.toList) :
    mergeIncludes (includeAssemble E) (includeAssemble E) = includeAssemble E := by
  rw [mergeIncludes_eq_assemble, extractIncludes_assemble E hinc,
    dedupByNorm_self_append, dedup_assemble E hE, includeAssemble_eq,
    locFilter_assembled E, sysFilter_assembled E, othFilter_assembled E,
    pySorted_of_keySorted _ (pySorted_keySorted _), pySorted_sys_assembled E,
    includeAssemble_eq E]

/-- **C8.** `merge_includes` is idempotent on its own outputs: merging an
already merged, de-duplicated, grouped and sorted include list with itself
yields the same list. -/
theorem mergeIncludes_idempotent (ours theirs : List String) :
    mergeIncludes (mergeIncludes ours theirs) (mergeIncludes ours theirs)
      = mergeIncludes ours theirs := by
  rw [mergeIncludes_eq_assemble ours theirs]
  apply includeAssemble_idem
  · exact (dedupByNorm_normsDistinct _ []).1
  · intro x hx
    have hx2 := dedupByNorm_mem _ [] x hx
    rcases List.mem_append.mp hx2 with h | h
    · exact mem_extractIncludes _ x h
    · exact mem_extractIncludes _ x h

end ReleaseAgent
